import Mathlib

/-!
# Verification of the documentation-generation pipeline

A shallow embedding, in Lean 4, of the string-processing and control-flow
kernels of the repository: the retry wrapper (`domain/langgraph/utils/llm_backoff.py`),
the markdown section model and patch merger (`domain/langgraph/nodes/document_generator_node.py`),
the diff matcher and file-summary fan-out (`domain/langgraph/nodes/change_analyzer_node.py`),
the summarizer fan-out (`domain/langgraph/nodes/file_summarizer_node.py`) and the
branch-download loop (`domain/langgraph/nodes/repository_analyzer_node.py`).

Python strings are modelled as `List Char`; the Python string primitives used by
the source (`strip`, `rstrip`, `split`, `replace`, `in`, `lower`, and the few
regular expressions the source compiles) are given executable ASCII models below.
Whitespace is the ASCII whitespace set recognized by both Python's `str.strip`
and the regex class `\s` (space, TAB, LF, CR, VT, FF).
-/

/-- ASCII whitespace, the subset of characters treated as whitespace by both
Python `str.strip()` and the regex class `\s` that occurs in the sources. -/
def pyIsSpace (c : Char) : Bool :=
  c = ' ' || c = '\t' || c = '\n' || c = '\r' || c = Char.ofNat 11 || c = Char.ofNat 12

/-- Python `str.lstrip()` (ASCII model). -/
def pyLStrip (s : List Char) : List Char :=
  s.dropWhile pyIsSpace

/-- Python `str.rstrip()` (ASCII model). -/
def pyRStrip (s : List Char) : List Char :=
  (s.reverse.dropWhile pyIsSpace).reverse

/-- Python `str.strip()` (ASCII model): strip both ends. -/
def pyStrip (s : List Char) : List Char :=
  pyLStrip (pyRStrip s)

/-- `listStarts s pat` holds when `pat` occurs at the very beginning of `s`. -/
def listStarts : List Char → List Char → Bool
  | _, [] => true
  | [], _ :: _ => false
  | c :: s, p :: ps => c = p && listStarts s ps

/-- Python substring containment `pat in s` (note `"" in s` is `True`). -/
def pyContains : List Char → List Char → Bool
  | s, pat =>
    if listStarts s pat then true
    else
      match s with
      | [] => false
      | _ :: rest => pyContains rest pat

/-- Python `str.lower()` (ASCII model). -/
def pyToLower (s : List Char) : List Char :=
  s.map Char.toLower

/-- Python `s.split(sep)` for a one-character separator: keeps empty chunks,
`"".split(c) = [""]`. -/
def pySplitChar (sep : Char) : List Char → List (List Char)
  | [] => [[]]
  | c :: rest =>
    match pySplitChar sep rest with
    | [] => [[]]
    | l :: ls => if c = sep then [] :: l :: ls else (c :: l) :: ls

/-- Python `sep.join(chunks)` for a one-character separator. -/
def pyJoinChar (sep : Char) : List (List Char) → List Char
  | [] => []
  | [l] => l
  | l :: ls => l ++ sep :: pyJoinChar sep ls

/-! ## `domain/langgraph/utils/llm_backoff.py` -/

/-- `RETRYABLE_DEFAULT = ["rate limit", "timeout", "overloaded", "429"]`. -/
def RETRYABLE_DEFAULT : List (List Char) :=
  ["rate limit".toList, "timeout".toList, "overloaded".toList, "429".toList]

/-- `_is_retryable_error(err)`: lower-case the error text and test each default
substring plus the comma-separated tokens from `LLM_RETRYABLE_ERROR_SUBSTRINGS`
(each token stripped and lowered, blank tokens discarded).  `extraEnv` is the
value of that environment variable, `errText` the value of `str(err)`. -/
def is_retryable_error (extraEnv : List Char) (errText : List Char) : Bool :=
  let txt := pyToLower errText
  let tokens := (pySplitChar ',' extraEnv).filterMap
    (fun t => if pyStrip t = [] then none else some (pyToLower (pyStrip t)))
  (RETRYABLE_DEFAULT ++ tokens).any (fun key => pyContains txt key)

/-- One invocation of the wrapped backend either returns text or raises an
error carrying the text of the exception. -/
inductive CallResult where
  | ok (v : List Char)
  | err (e : List Char)
deriving DecidableEq

/-- The `while True` loop of `invoke_with_retry`: `calls i` is the outcome of
the `i`-th underlying `llm.invoke` (0-based), `i` the number of calls made so
far.  After a failing call, `attempt = i + 1`; the loop re-raises when
`attempt > max_retries` or the error is not retryable, otherwise it sleeps and
iterates.  The `fuel` argument only establishes termination: the caller passes
`maxRetries + 1 - i`, so the fuel-exhausted branch coincides with the
`attempt > max_retries` re-raise and is semantically redundant.  The second
component of the result counts the calls made. -/
def retryLoop (retryable : List Char → Bool) (calls : Nat → CallResult)
    (maxRetries : Nat) : Nat → Nat → Except (List Char) (List Char) × Nat
  | i, 0 =>
    match calls i with
    | .ok v => (.ok v, i + 1)
    | .err e => (.error e, i + 1)
  | i, fuel + 1 =>
    match calls i with
    | .ok v => (.ok v, i + 1)
    | .err e =>
      if i + 1 > maxRetries || !(retryable e) then (.error e, i + 1)
      else retryLoop retryable calls maxRetries (i + 1) fuel

/-- `invoke_with_retry(llm, messages)`, abstracted over the backend: the
backend is the outcome sequence `calls`, retryability classification is
`retryable`, and `maxRetries` is `int(os.getenv("LLM_MAX_RETRIES", "3"))`.
Returns the propagated result together with the number of `llm.invoke` calls
made.  (The backoff sleep affects timing only, never the result or call
count, and is not modelled.) -/
def invoke_with_retry (retryable : List Char → Bool) (calls : Nat → CallResult)
    (maxRetries : Nat) : Except (List Char) (List Char) × Nat :=
  retryLoop retryable calls maxRetries 0 (maxRetries + 1)

/-- A backend that always fails with a rate-limit error text. -/
def alwaysRateLimited : Nat → CallResult :=
  fun _ => .err ("429 rate limit".toList)

/-- C1, counterexample: with the default `max_retries = 3` and an
always-rate-limited backend, `invoke_with_retry` makes 4 calls (the initial
attempt plus 3 retries), not 3 as the claim states. -/
theorem C1_counterexample :
    (invoke_with_retry (is_retryable_error []) alwaysRateLimited 3).2 = 4 ∧
    ¬ (invoke_with_retry (is_retryable_error []) alwaysRateLimited 3).2 = 3 := by
  constructor
  · rfl
  · decide

/-- C1 (amended): with `max_retries = 3` (the default) and a backend failing
every call with a retryable (e.g. rate-limit) error, `invoke_with_retry`
invokes the backend exactly `3 + 1 = 4` times — the initial attempt plus three
retries — and then re-raises the error of the last (fourth) call. -/
theorem C1_retry_ceiling (e : Nat → List Char)
    (h : ∀ i, is_retryable_error [] (e i) = true) :
    invoke_with_retry (is_retryable_error []) (fun i => .err (e i)) 3
      = (.error (e 3), 4) := by
  simp [invoke_with_retry, retryLoop, h 0, h 1, h 2]

/-- C1 witness: the amended theorem applied to the concrete always-rate-limited
backend. -/
theorem C1_witness :
    invoke_with_retry (is_retryable_error []) alwaysRateLimited 3
      = (.error ("429 rate limit".toList), 4) :=
  C1_retry_ceiling (fun _ => ("429 rate limit".toList))
    (fun _ => show is_retryable_error [] ("429 rate limit".toList) = true by decide)

/-! ## `repository_analyzer_node.py`: `_download_repository_zip_sync`, branch loop -/

/-- The per-branch download loop of `_download_repository_zip_sync`
(lines 137-183), abstracted over the network: `status b` is the HTTP status
returned for branch `b`'s codeload URL, `extractOk b` tells whether the fetched
archive extracts to a non-empty top-level directory.  Returns the list of
branch candidates actually attempted together with the branch the function
succeeds on (`none` models returning `None`, i.e. fetch failure).  A 200
stores and extracts (success, or failure when the archive is empty); a 404 or
a redirect status moves on to the next candidate (`continue`); a 403 breaks
out of the loop; any other status also moves on to the next candidate. -/
def download_branch_loop (status : List Char → Nat) (extractOk : List Char → Bool) :
    List (List Char) → List (List Char) × Option (List Char)
  | [] => ([], none)
  | b :: rest =>
    let s := status b
    if s = 200 then
      ([b], if extractOk b then some b else none)
    else if s = 404 then
      let r := download_branch_loop status extractOk rest
      (b :: r.1, r.2)
    else if s = 301 ∨ s = 302 ∨ s = 303 ∨ s = 307 ∨ s = 308 then
      let r := download_branch_loop status extractOk rest
      (b :: r.1, r.2)
    else if s = 403 then
      ([b], none)
    else
      let r := download_branch_loop status extractOk rest
      (b :: r.1, r.2)

/-- C8: during repository archive download, a 404 moves on to the next branch
candidate, any other non-200 non-403 status also moves on to the next
candidate, and a 403 aborts the loop immediately: only the 403 branch itself
was attempted, no further candidate is tried, and the fetch fails. -/
theorem C8_branch_loop_policy (status : List Char → Nat) (extractOk : List Char → Bool)
    (b : List Char) (rest : List (List Char)) :
    (status b = 404 →
      download_branch_loop status extractOk (b :: rest)
        = (b :: (download_branch_loop status extractOk rest).1,
           (download_branch_loop status extractOk rest).2)) ∧
    (status b ≠ 200 → status b ≠ 403 →
      download_branch_loop status extractOk (b :: rest)
        = (b :: (download_branch_loop status extractOk rest).1,
           (download_branch_loop status extractOk rest).2)) ∧
    (status b = 403 →
      download_branch_loop status extractOk (b :: rest) = ([b], none)) := by
  refine ⟨fun h404 => ?_, fun h200 h403 => ?_, fun h403 => ?_⟩
  · simp [download_branch_loop, h404]
  · simp only [download_branch_loop]
    split_ifs <;> simp_all
  · simp only [download_branch_loop]
    split_ifs <;> simp_all

/-- C8 witness: a status assignment where the default branch is missing (404),
`main` is served a 500, and `master` answers 403: the loop attempts all three
and fails; flipping `master` to 403-first shows the abort. -/
theorem C8_witness :
    (download_branch_loop
        (fun b => if b = ("develop".toList) then 404 else 403) (fun _ => true)
        (("develop".toList) :: ("main".toList) :: [("master".toList)])
      = ([("develop".toList), ("main".toList)], none)) ∧
    (download_branch_loop
        (fun b => if b = ("develop".toList) then 404 else 403) (fun _ => true)
        (("main".toList) :: [("master".toList)])
      = ([("main".toList)], none)) := by
  have h1 := (C8_branch_loop_policy
    (fun b => if b = ("develop".toList) then 404 else 403) (fun _ => true)
    ("develop".toList) (("main".toList) :: [("master".toList)])).1 (by decide)
  have h2 := (C8_branch_loop_policy
    (fun b => if b = ("develop".toList) then 404 else 403) (fun _ => true)
    ("main".toList) [("master".toList)]).2.2 (by decide)
  refine ⟨?_, h2⟩
  rw [h1, h2]

/-! ## `change_analyzer_node.py`: `_find_diff_for_file` -/

/-- Python `dict` keyed lookup over the dict's item list (insertion order,
keys unique): the value at key `k`, or `none`. -/
def dictGet (m : List (List Char × List Char)) (k : List Char) : Option (List Char) :=
  (m.find? (fun kv => kv.1 = k)).map (fun kv => kv.2)

/-- `norm_name = filename.strip().replace('\\', '/')`. -/
def normQuery (filename : List Char) : List Char :=
  (pyStrip filename).map (fun c => if c = '\\' then '/' else c)

/-- The rule-3 test of `_find_diff_for_file`:
`key.endswith(norm_name) or norm_name.endswith(key)`. -/
def suffixHit (filename : List Char) (kv : List Char × List Char) : Bool :=
  (normQuery filename).isSuffixOf kv.1 || kv.1.isSuffixOf (normQuery filename)

/-- `_find_diff_for_file(filename, diff_map)` (lines 252-274): exact key match,
then `a/`-prefixed key match, then first suffix hit in dict order, else the
empty diff block. -/
def find_diff_for_file (filename : List Char)
    (diffMap : List (List Char × List Char)) : List Char :=
  match dictGet diffMap filename with
  | some v => v
  | none =>
    match dictGet diffMap ("a/".toList ++ filename) with
    | some v => v
    | none =>
      match diffMap.find? (suffixHit filename) with
      | some kv => kv.2
      | none => []

/-- The diff map of the spec's concrete example. -/
def exampleDiffMap : List (List Char × List Char) :=
  [("backend/main.py".toList, "diff block backend".toList),
   ("lib/util.py".toList, "diff block lib".toList)]

/-- C4: `_find_diff_for_file` applies exact match, then `a/`-prefixed match,
then bidirectional suffix match (query separators normalized to `/`) with the
first hit winning, and returns an empty diff block when nothing matches —
including on an empty map; on the example map, `"main.py"` finds the
`backend/main.py` block and `"notfound.py"` finds nothing. -/
theorem C4_find_diff_policy :
    (∀ m f v, dictGet m f = some v → find_diff_for_file f m = v) ∧
    (∀ m f v, dictGet m f = none → dictGet m ("a/".toList ++ f) = some v →
      find_diff_for_file f m = v) ∧
    (∀ m f kv, dictGet m f = none → dictGet m ("a/".toList ++ f) = none →
      m.find? (suffixHit f) = some kv → find_diff_for_file f m = kv.2) ∧
    (∀ m f, dictGet m f = none → dictGet m ("a/".toList ++ f) = none →
      m.find? (suffixHit f) = none → find_diff_for_file f m = []) ∧
    (find_diff_for_file ("main.py".toList) exampleDiffMap
      = ("diff block backend".toList)) ∧
    (find_diff_for_file ("notfound.py".toList) exampleDiffMap = []) ∧
    (∀ f, find_diff_for_file f [] = []) := by
  refine ⟨?_, ?_, ?_, ?_, by decide, by decide, ?_⟩
  · intro m f v h
    simp [find_diff_for_file, h]
  · intro m f v h1 h2
    simp [find_diff_for_file, h1, show dictGet m ('a' :: '/' :: f) = some v from h2]
  · intro m f kv h1 h2 h3
    simp [find_diff_for_file, h1, show dictGet m ('a' :: '/' :: f) = none from h2, h3]
  · intro m f h1 h2 h3
    simp [find_diff_for_file, h1, show dictGet m ('a' :: '/' :: f) = none from h2, h3]
  · intro f
    simp [find_diff_for_file, dictGet]

/-- C4 witness: the first policy rule discharged at a concrete exact-match
query on the example map. -/
theorem C4_witness :
    find_diff_for_file ("lib/util.py".toList) exampleDiffMap
      = ("diff block lib".toList) :=
  C4_find_diff_policy.1 exampleDiffMap ("lib/util.py".toList)
    ("diff block lib".toList) (by decide)

/-! ## Bounded fan-out ordering: `file_summarizer_node.py` and
`change_analyzer_node.py` (`_generate_file_summaries`)

The thread pools are modelled by an adversarial completion order: the
`as_completed` iterator yields the submitted futures as some permutation of
their submission indices, and each worker function is a pure per-item
function (worker functions in the source return records built only from their
own item). -/

/-- The parallel collection loop of `file_summarizer_node` (lines 98-104):
futures are submitted for `parsedFiles` in order, and results are appended in
*completion* order.  `completionOrder` lists the submission indices in the
order the futures complete. -/
def file_summarizer_collect {α β : Type} (parsedFiles : List α) (process : α → β)
    (completionOrder : List Nat) : List β :=
  completionOrder.filterMap (fun i => (parsedFiles[i]?).map process)

/-- Lookup in a Python dict built from a pair list by repeated assignment
(later assignments overwrite earlier ones), as in
`order_map = {s["file"]: s for s in summaries}`: the last pair with the given
key. -/
def dictLastLookup {α : Type} (pairs : List (List Char × α)) (k : List Char) :
    Option (List Char × α) :=
  (pairs.filter (fun kv => kv.1 == k)).getLast?

/-- `"low"`. -/
def lowStr : List Char := "low".toList

/-- The fan-out and order-restoration skeleton of `_generate_file_summaries`
(LLM mode, lines 315-382): low-priority files get fallback records inline
during the classification pass (in input order); the remaining files are
submitted to the pool and collected in completion order; finally
`[order_map[f] for f in changed_files if f in order_map]` restores input
order.  A summary record is modelled as `(file, payload)` — every record the
source builds carries `"file": f` for its own input file `f`, with `lowRec f`
the inline fallback payload and `llmRec f` the pool worker's payload. -/
def generate_file_summaries_order {α : Type} (changedFiles : List (List Char))
    (pri : List Char → List Char) (lowRec llmRec : List Char → α)
    (completionOrder : List Nat) : List (List Char × α) :=
  let lows := (changedFiles.filter (fun f => pri f == lowStr)).map (fun f => (f, lowRec f))
  let highs := changedFiles.filter (fun f => !(pri f == lowStr))
  let parallel := file_summarizer_collect highs (fun f => (f, llmRec f)) completionOrder
  let summaries := lows ++ parallel
  changedFiles.filterMap (fun f => dictLastLookup summaries f)

theorem range_filterMap_getElem {γ δ : Type} (l : List γ) (g : γ → δ) :
    (List.range l.length).filterMap (fun i => (l[i]?).map g) = l.map g := by
  induction l with
  | nil => rfl
  | cons a t ih =>
    rw [List.length_cons, List.range_succ_eq_map, List.filterMap_cons]
    simp only [List.getElem?_cons_zero, Option.map_some']
    rw [List.filterMap_map]
    have : ((fun i => ((a :: t)[i]?).map g) ∘ Nat.succ) = fun i => (t[i]?).map g := by
      funext i
      simp [List.getElem?_cons_succ]
    rw [this, ih, List.map_cons]

theorem collect_perm {γ δ : Type} (l : List γ) (g : γ → δ) (ord : List Nat)
    (h : ord.Perm (List.range l.length)) :
    (file_summarizer_collect l g ord).Perm (l.map g) := by
  have := h.filterMap (fun i => (l[i]?).map g)
  rwa [range_filterMap_getElem] at this

theorem filter_key_nodup (l : List (List Char)) (f : List Char) (q : List Char → Bool)
    (hn : l.Nodup) (hm : f ∈ l) :
    l.filter (fun x => (x == f) && q x) = if q f then [f] else [] := by
  induction l with
  | nil => cases hm
  | cons a t ih =>
    rw [List.nodup_cons] at hn
    rcases List.mem_cons.mp hm with rfl | hmt
    · have ht : t.filter (fun x => (x == f) && q x) = [] := by
        refine List.filter_eq_nil_iff.mpr ?_
        intro x hx
        have hxf : ¬ x = f := fun h => hn.1 (h ▸ hx)
        simp [hxf]
      rw [List.filter_cons]
      simp only [beq_self_eq_true, Bool.true_and]
      by_cases hq : q f = true
      · rw [if_pos hq, if_pos hq, ht]
      · rw [if_neg hq, if_neg hq, ht]
    · have haf : ¬ a = f := fun h => (h ▸ hn.1) hmt
      rw [List.filter_cons]
      have hb : (a == f) = false := beq_eq_false_iff_ne.mpr haf
      simp only [hb, Bool.false_and, if_neg Bool.false_ne_true]
      exact ih hn.2 hmt

theorem filterMap_eq_map_of {γ δ : Type} (l : List γ) (F : γ → Option δ) (G : γ → δ)
    (h : ∀ x ∈ l, F x = some (G x)) : l.filterMap F = l.map G := by
  induction l with
  | nil => rfl
  | cons a t ih =>
    rw [List.filterMap_cons, h a (List.mem_cons_self a t)]
    rw [List.map_cons, ih (fun x hx => h x (List.mem_cons_of_mem a hx))]

theorem dictLastLookup_summaries {α : Type} (changedFiles : List (List Char))
    (pri : List Char → List Char) (lowRec llmRec : List Char → α) (ord : List Nat)
    (hn : changedFiles.Nodup)
    (hp : ord.Perm (List.range (changedFiles.filter (fun f => !(pri f == lowStr))).length))
    (f : List Char) (hm : f ∈ changedFiles) :
    dictLastLookup
      (((changedFiles.filter (fun f => pri f == lowStr)).map (fun f => (f, lowRec f))) ++
        file_summarizer_collect (changedFiles.filter (fun f => !(pri f == lowStr)))
          (fun f => (f, llmRec f)) ord) f
      = some (f, if pri f == lowStr then lowRec f else llmRec f) := by
  unfold dictLastLookup
  rw [List.filter_append]
  have hA : ((changedFiles.filter (fun f => pri f == lowStr)).map
      (fun f => (f, lowRec f))).filter (fun kv => kv.1 == f)
      = if pri f == lowStr then [(f, lowRec f)] else [] := by
    rw [List.filter_map]
    have hcomp : ((fun kv : List Char × α => kv.1 == f) ∘ (fun x => (x, lowRec x)))
        = fun x => x == f := rfl
    rw [hcomp, List.filter_filter, filter_key_nodup changedFiles f _ hn hm]
    by_cases hl : (pri f == lowStr) = true
    · rw [if_pos hl, if_pos hl]
      rfl
    · rw [if_neg hl, if_neg hl]
      rfl
  have hBperm : ((file_summarizer_collect (changedFiles.filter (fun f => !(pri f == lowStr)))
      (fun f => (f, llmRec f)) ord).filter (fun kv => kv.1 == f)).Perm
      (if !(pri f == lowStr) then [(f, llmRec f)] else []) := by
    have h1 := (collect_perm (changedFiles.filter (fun f => !(pri f == lowStr)))
      (fun f => (f, llmRec f)) ord hp).filter (fun kv => kv.1 == f)
    have h2 : ((changedFiles.filter (fun f => !(pri f == lowStr))).map
        (fun f => (f, llmRec f))).filter (fun kv => kv.1 == f)
        = if !(pri f == lowStr) then [(f, llmRec f)] else [] := by
      rw [List.filter_map]
      have hcomp : ((fun kv : List Char × α => kv.1 == f) ∘ (fun x => (x, llmRec x)))
          = fun x => x == f := rfl
      rw [hcomp, List.filter_filter, filter_key_nodup changedFiles f _ hn hm]
      by_cases hl : (!(pri f == lowStr)) = true
      · rw [if_pos hl, if_pos hl]
        rfl
      · rw [if_neg hl, if_neg hl]
        rfl
    rw [h2] at h1
    exact h1
  by_cases hl : (pri f == lowStr) = true
  · have hBnil : (file_summarizer_collect (changedFiles.filter (fun f => !(pri f == lowStr)))
        (fun f => (f, llmRec f)) ord).filter (fun kv => kv.1 == f) = [] := by
      have h' := hBperm
      rw [hl] at h'
      simp only [Bool.not_true, Bool.false_eq_true, if_false] at h'
      exact List.perm_nil.mp h'
    rw [hA, hBnil, if_pos hl, if_pos hl, List.append_nil]
    simp
  · have hB1 : (file_summarizer_collect (changedFiles.filter (fun f => !(pri f == lowStr)))
        (fun f => (f, llmRec f)) ord).filter (fun kv => kv.1 == f) = [(f, llmRec f)] := by
      have h' := hBperm
      have hl' : (!(pri f == lowStr)) = true := by
        have hf : (pri f == lowStr) = false := Bool.eq_false_iff.mpr (fun hc => hl hc)
        rw [hf]
        rfl
      rw [hl', if_pos rfl] at h'
      exact List.perm_singleton.mp h'
    rw [hA, hB1, if_neg hl, if_neg hl, List.nil_append]
    simp

/-- C3, counterexample: the parallel collection loop of `file_summarizer_node`
appends results in completion order, so with two files and the second future
completing first (`completionOrder = [1, 0]`, a valid completion order with
two workers since both files run concurrently), the result list is reversed
with respect to the input list. -/
theorem C3_counterexample :
    (([1, 0] : List Nat).Perm (List.range 2)) ∧
    file_summarizer_collect [("a.py".toList), ("b.py".toList)]
        (fun f => f) [1, 0]
      = [("b.py".toList), ("a.py".toList)] ∧
    ¬ file_summarizer_collect [("a.py".toList), ("b.py".toList)]
        (fun f => f) [1, 0]
      = [("a.py".toList), ("b.py".toList)] := by
  refine ⟨by decide, by decide, by decide⟩

/-- C3 (amended): the change-analyzer fan-out `_generate_file_summaries` does
restore input order: for every duplicate-free input file list and every
completion order of the worker pool (any permutation of the submitted
indices), the summary list it returns is in the order of the input file list,
with the inline fallback payload for low-priority files and the pool worker's
payload for the rest.  (`file_summarizer_node`, by contrast, returns its
results in completion order — see the counterexample.) -/
theorem C3_order_restoration {α : Type} (changedFiles : List (List Char))
    (pri : List Char → List Char) (lowRec llmRec : List Char → α) (ord : List Nat)
    (hn : changedFiles.Nodup)
    (hp : ord.Perm (List.range (changedFiles.filter (fun f => !(pri f == lowStr))).length)) :
    generate_file_summaries_order changedFiles pri lowRec llmRec ord
      = changedFiles.map (fun f => (f, if pri f == lowStr then lowRec f else llmRec f)) := by
  unfold generate_file_summaries_order
  exact filterMap_eq_map_of _ _ _
    (fun f hf => dictLastLookup_summaries changedFiles pri lowRec llmRec ord hn hp f hf)

/-- C3 witness: three files of which `x.py` is low-priority, with the pool
completing the two submitted futures in reverse order; the returned summary
list is nevertheless in input order. -/
theorem C3_witness :
    generate_file_summaries_order
        [("x.py".toList), ("y.py".toList), ("z.py".toList)]
        (fun f => if f = ("x.py".toList) then lowStr else ("high".toList))
        (fun f => 'L' :: f) (fun f => 'P' :: f) [1, 0]
      = [(("x.py".toList), 'L' :: ("x.py".toList)),
         (("y.py".toList), 'P' :: ("y.py".toList)),
         (("z.py".toList), 'P' :: ("z.py".toList))] := by
  rw [C3_order_restoration
    [("x.py".toList), ("y.py".toList), ("z.py".toList)]
    (fun f => if f = ("x.py".toList) then lowStr else ("high".toList))
    (fun f => 'L' :: f) (fun f => 'P' :: f) [1, 0] (by decide) (by decide)]
  decide

/-! ## `document_generator_node.py`: the section patch merger

`_merge_changelog` (lines 332-342) and `_merge_section_changes`
(lines 345-407).  The two compiled regexes and the `str.replace`/`str.split`
calls are modelled by explicit scanners.  Scanners that advance by more than
one character per step take a fuel argument for termination; fuel is always
instantiated with the scanned list's length, which strictly bounds the number
of scanning steps, so the fuel-exhausted branches are unreachable. -/

/-- `"[NO_CHANGE]"`. -/
def noChangeStr : List Char := "[NO_CHANGE]".toList

/-- `"[UPDATE:"` (the literal head of the update-marker regexes). -/
def updateLit : List Char := "[UPDATE:".toList

/-- `"[ADD]"`. -/
def addLit : List Char := "[ADD]".toList

/-- `"\n\n"`, the paragraph separator. -/
def nnStr : List Char := ['\n', '\n']

/-- `_merge_changelog(old_content, new_entry)`: keep `old_content` for empty
or `[NO_CHANGE]`-containing entries; return the entry alone when the old body
is blank; otherwise append the entry after the right-stripped old body and a
newline. -/
def merge_changelog (old_content new_entry : List Char) : List Char :=
  if new_entry = [] || pyContains new_entry noChangeStr then old_content
  else if pyStrip old_content = [] then new_entry
  else pyRStrip old_content ++ '\n' :: new_entry

/-- Split at the first occurrence of `t`: `some (pre, post)` with
`s = pre ++ t :: post` and `t ∉ pre`, or `none` when `t` does not occur. -/
def splitAtFirst (t : Char) : List Char → Option (List Char × List Char)
  | [] => none
  | c :: rest =>
    if c = t then some ([], rest)
    else (splitAtFirst t rest).map (fun p => (c :: p.1, p.2))

/-- Fueled scanner for Python `s.replace(pat, new)` (left-to-right,
non-overlapping). -/
def pyReplaceGo (pat new : List Char) : Nat → List Char → List Char
  | 0, s => s
  | _ + 1, [] => []
  | fuel + 1, c :: rest =>
    if listStarts (c :: rest) pat then
      new ++ pyReplaceGo pat new fuel (rest.drop (pat.length - 1))
    else c :: pyReplaceGo pat new fuel rest

/-- Python `s.replace(pat, new)` for non-empty `pat` (the source only replaces
non-empty literals). -/
def pyReplace (s pat new : List Char) : List Char :=
  if pat = [] then s else pyReplaceGo pat new s.length s

/-- Fueled scanner for `re.sub(r'\[UPDATE:[^\]]*\]', '', s)`: drop every
occurrence of the literal `[UPDATE:` followed by a (possibly empty) run of
non-`]` characters and a closing `]`; greedy `[^\]]*` always stops at the
first `]`, and with no `]` ahead the regex cannot match at this position. -/
def subUpdateGo : Nat → List Char → List Char
  | 0, s => s
  | _ + 1, [] => []
  | fuel + 1, c :: rest =>
    if listStarts (c :: rest) updateLit then
      match splitAtFirst ']' ((c :: rest).drop 8) with
      | some (_, post) => subUpdateGo fuel post
      | none => c :: subUpdateGo fuel rest
    else c :: subUpdateGo fuel rest

/-- `re.sub(r'\[UPDATE:[^\]]*\]', '', s)`. -/
def subUpdateMarker (s : List Char) : List Char :=
  subUpdateGo s.length s

/-- Fueled scanner for
`re.compile(r'\[UPDATE:\s*([^\]]+)\]\s*\n*([^\[]*?)(?=\[|$)', re.DOTALL).findall(s)`.
At each occurrence of the literal `[UPDATE:`, the greedy `\s*([^\]]+)\]`
captures up to the first following `]` and requires at least one captured
character; since group 1 is only ever used stripped, it is returned already
stripped (the engine's `\s*`/`[^\]]+` backtracking differs from the raw
pre-`]` text only in leading whitespace).  The lazy group 2 with its
`(?=\[|$)` lookahead captures up to the next `[` or the end; since group 2 is
also only ever used stripped, the `$`-before-final-newline subtlety is
immaterial, and scanning resumes at the `[` that satisfied the lookahead. -/
def findUpdateGo : Nat → List Char → List (List Char × List Char)
  | 0, _ => []
  | _ + 1, [] => []
  | fuel + 1, c :: rest =>
    if listStarts (c :: rest) updateLit then
      match splitAtFirst ']' ((c :: rest).drop 8) with
      | some (pre, post) =>
        if pre = [] then findUpdateGo fuel rest
        else (pyStrip pre, post.takeWhile (fun x => !(x = '['))) ::
          findUpdateGo fuel (post.dropWhile (fun x => !(x = '[')))
      | none => findUpdateGo fuel rest
    else findUpdateGo fuel rest

/-- `update_pattern.findall(changes)` as `(snippet, new_content)` pairs
(snippet pre-stripped, see `findUpdateGo`). -/
def findUpdateMatches (s : List Char) : List (List Char × List Char) :=
  findUpdateGo s.length s

/-- Fueled scanner for
`re.compile(r'\[ADD\]\s*\n*([^\[]*?)(?=\[|$)', re.DOTALL).findall(s)`;
the same group-2 modelling as in `findUpdateGo`. -/
def findAddGo : Nat → List Char → List (List Char)
  | 0, _ => []
  | _ + 1, [] => []
  | fuel + 1, c :: rest =>
    if listStarts (c :: rest) addLit then
      ((c :: rest).drop 5).takeWhile (fun x => !(x = '[')) ::
        findAddGo fuel (((c :: rest).drop 5).dropWhile (fun x => !(x = '[')))
    else findAddGo fuel rest

/-- `add_pattern.findall(changes)`. -/
def findAddMatches (s : List Char) : List (List Char) :=
  findAddGo s.length s

/-- Fueled scanner for Python `s.split(sep)` with a multi-character separator
(left-to-right, non-overlapping); `acc` holds the current chunk reversed. -/
def pySplitOnGo (pat : List Char) : Nat → List Char → List Char → List (List Char)
  | 0, s, acc => [acc.reverse ++ s]
  | _ + 1, [], acc => [acc.reverse]
  | fuel + 1, c :: rest, acc =>
    if listStarts (c :: rest) pat then
      acc.reverse :: pySplitOnGo pat fuel (rest.drop (pat.length - 1)) []
    else pySplitOnGo pat fuel rest (c :: acc)

/-- Python `s.split(sep)` for a non-empty multi-character separator. -/
def pySplitOn (pat s : List Char) : List (List Char) :=
  if pat = [] then [s] else pySplitOnGo pat s.length s []

/-- `sep.join(chunks)` for a multi-character separator. -/
def pyJoinSeq (sep : List Char) : List (List Char) → List Char
  | [] => []
  | [l] => l
  | l :: ls => l ++ sep ++ pyJoinSeq sep ls

/-- The `for i, line in enumerate(lines)` / `for i, para in enumerate(...)`
search of `_merge_section_changes`: replace the first chunk containing
`key` or `snippet` by `newText` (`some` on success, `none` when no chunk
matches). -/
def replaceFirst (key snippet newText : List Char) :
    List (List Char) → Option (List (List Char))
  | [] => none
  | l :: ls =>
    if pyContains l key || pyContains l snippet then some (newText :: ls)
    else (replaceFirst key snippet newText ls).map (fun r => l :: r)

/-- The body of the `for original_snippet, new_content in matches` loop of
`_merge_section_changes`: line-level replacement first, then paragraph-level,
then append at the end. -/
def applyUpdate (result : List Char) (m : List Char × List Char) : List Char :=
  let snippet := pyStrip m.1
  let newText := pyStrip m.2
  if newText = [] then result
  else
    let snippetKey := if snippet.length > 30 then snippet.take 30 else snippet
    match replaceFirst snippetKey snippet newText (pySplitChar '\n' result) with
    | some lines2 => pyJoinChar '\n' lines2
    | none =>
      match replaceFirst snippetKey snippet newText (pySplitOn nnStr result) with
      | some paras2 => pyJoinSeq nnStr paras2
      | none => pyRStrip result ++ nnStr ++ newText

/-- The body of the `for add_content in add_matches` loop. -/
def applyAdd (result : List Char) (a : List Char) : List Char :=
  let newText := pyStrip a
  if newText = [] then result else pyRStrip result ++ nnStr ++ newText

/-- `_merge_section_changes(old_content, changes)` (lines 345-407). -/
def merge_section_changes (old_content changes : List Char) : List Char :=
  if changes = [] || pyContains changes noChangeStr then old_content
  else if pyStrip old_content = [] then
    let cleaned := pyStrip (pyReplace (pyReplace changes addLit []) updateLit [])
    pyStrip (subUpdateMarker cleaned)
  else
    let afterUpdates := (findUpdateMatches changes).foldl applyUpdate old_content
    pyStrip ((findAddMatches changes).foldl applyAdd afterUpdates)

/-- C6: the empty patch and the patch that is exactly `[NO_CHANGE]` are
identities for both the changelog merge and the general section merge, for
every section body. -/
theorem C6_no_change_identity (old : List Char) :
    merge_changelog old [] = old ∧
    merge_section_changes old [] = old ∧
    merge_changelog old noChangeStr = old ∧
    merge_section_changes old noChangeStr = old := by
  refine ⟨?_, ?_, ?_, ?_⟩ <;>
    simp [merge_changelog, merge_section_changes,
      show pyContains noChangeStr noChangeStr = true by decide]

/-- C10: whenever the patch text contains the substring `[NO_CHANGE]`
anywhere — even alongside `[UPDATE:]`/`[ADD]` blocks — both mergers return the
old body unchanged and every other block is discarded: the no-change check is
substring containment, not equality with the sentinel. -/
theorem C10_no_change_substring (old patch : List Char)
    (h : pyContains patch noChangeStr = true) :
    merge_section_changes old patch = old ∧ merge_changelog old patch = old := by
  constructor
  · simp [merge_section_changes, h]
  · simp [merge_changelog, h]

/-- A patch that mixes `[UPDATE:]`, `[NO_CHANGE]` and `[ADD]` blocks. -/
def mixedNoChangePatch : List Char :=
  "[UPDATE: a]\nx\n[NO_CHANGE]\n[ADD]\ny".toList

/-- C10 witness: the substring check fires on a patch that also carries
update and add blocks, leaving a concrete body untouched. -/
theorem C10_witness :
    merge_section_changes ("body".toList) mixedNoChangePatch = ("body".toList) ∧
    merge_changelog ("body".toList) mixedNoChangePatch = ("body".toList) :=
  C10_no_change_substring ("body".toList) mixedNoChangePatch (by decide)

/-- C7: evaluating `_merge_section_changes` on an empty old body and the patch
`"[UPDATE: foo]\nbar"`: the claimed/documented behavior is to strip all
markers and return only the replacement text `"bar"`, but the code first
erases the literal `[UPDATE:` (leaving `" foo]\nbar"`), after which the
full-marker regex `\[UPDATE:[^\]]*\]` can no longer match anything, so the
snippet text and the closing bracket survive into the output. -/
theorem C7_marker_residue :
    merge_section_changes [] ("[UPDATE: foo]\nbar".toList) = ("foo]\nbar".toList) ∧
    ¬ merge_section_changes [] ("[UPDATE: foo]\nbar".toList) = ("bar".toList) := by
  constructor
  · decide
  · decide

/-- C9: the section patch merger is deterministic — the embedding of
`_merge_section_changes` and `_merge_changelog` is a pure function of
`(oldBody, patchText)` (the source consults no clock, randomness, or
environment in either function), so identical inputs give identical outputs
on any two invocations. -/
theorem C9_merger_deterministic (old₁ old₂ p₁ p₂ : List Char)
    (ho : old₁ = old₂) (hp : p₁ = p₂) :
    merge_section_changes old₁ p₁ = merge_section_changes old₂ p₂ ∧
    merge_changelog old₁ p₁ = merge_changelog old₂ p₂ := by
  subst ho
  subst hp
  exact ⟨rfl, rfl⟩

/-- C9 witness: two invocations on an equal concrete input pair agree. -/
theorem C9_witness :
    merge_section_changes ("alpha".toList) ("[ADD]\nbeta".toList)
      = merge_section_changes ("alpha".toList) ("[ADD]\nbeta".toList) ∧
    merge_changelog ("alpha".toList) ("[ADD]\nbeta".toList)
      = merge_changelog ("alpha".toList) ("[ADD]\nbeta".toList) :=
  C9_merger_deterministic ("alpha".toList) ("alpha".toList)
    ("[ADD]\nbeta".toList) ("[ADD]\nbeta".toList) rfl rfl

def lineCount (s : List Char) : Nat := (pySplitChar '\n' s).length

theorem pySplitChar_ne_nil (sep : Char) (s : List Char) : pySplitChar sep s ≠ [] := by
  induction s with
  | nil => simp [pySplitChar]
  | cons c rest ih =>
    simp only [pySplitChar]
    cases h : pySplitChar sep rest with
    | nil => simp
    | cons l ls =>
      by_cases hc : c = sep <;> simp [hc]

theorem pySplitChar_cons_sep (sep : Char) (rest : List Char) :
    pySplitChar sep (sep :: rest) = [] :: pySplitChar sep rest := by
  cases h : pySplitChar sep rest with
  | nil => exact absurd h (pySplitChar_ne_nil _ _)
  | cons l ls => simp [pySplitChar, h]

theorem pySplitChar_cons_ne (sep c : Char) (rest : List Char) (hc : ¬ c = sep) :
    ∃ l ls, pySplitChar sep rest = l :: ls ∧
      pySplitChar sep (c :: rest) = (c :: l) :: ls := by
  cases h : pySplitChar sep rest with
  | nil => exact absurd h (pySplitChar_ne_nil _ _)
  | cons l ls => exact ⟨l, ls, rfl, by simp [pySplitChar, h, hc]⟩

theorem lineCount_pos (s : List Char) : 1 ≤ lineCount s := by
  unfold lineCount
  cases h : pySplitChar '\n' s with
  | nil => exact absurd h (pySplitChar_ne_nil _ _)
  | cons l ls => simp

theorem lineCount_eq_count (s : List Char) : lineCount s = s.count '\n' + 1 := by
  induction s with
  | nil => rfl
  | cons c rest ih =>
    by_cases hc : c = '\n'
    · subst hc
      rw [lineCount, pySplitChar_cons_sep, List.length_cons]
      rw [lineCount] at ih
      rw [List.count_cons]
      simp only [beq_self_eq_true, if_true]
      omega
    · obtain ⟨l, ls, h1, h2⟩ := pySplitChar_cons_ne '\n' c rest hc
      rw [lineCount, h2, List.length_cons]
      rw [lineCount, h1, List.length_cons] at ih
      rw [List.count_cons]
      have hb : (c == '\n') = false := beq_eq_false_iff_ne.mpr hc
      rw [hb]
      simp only [Bool.false_eq_true, if_false]
      omega

theorem lineCount_append (a b : List Char) :
    lineCount (a ++ b) = lineCount a + b.count '\n' := by
  rw [lineCount_eq_count, lineCount_eq_count, List.count_append]
  omega

theorem dropWhile_head_not (p : Char → Bool) (l : List Char) :
    l.dropWhile p = [] ∨ ∃ c cs, l.dropWhile p = c :: cs ∧ p c = false := by
  induction l with
  | nil => exact Or.inl rfl
  | cons a t ih =>
    by_cases h : p a = true
    · simpa [List.dropWhile_cons, h] using ih
    · right
      refine ⟨a, t, by simp [List.dropWhile_cons, h], by simpa using h⟩

theorem pyStrip_nil_rstrip_nil (s : List Char) (h : pyStrip s = []) : pyRStrip s = [] := by
  unfold pyStrip pyLStrip at h
  have hall : ∀ x ∈ pyRStrip s, pyIsSpace x = true := by
    intro x hx
    exact List.dropWhile_eq_nil_iff.mp h x hx
  rcases dropWhile_head_not pyIsSpace s.reverse with hnil | ⟨c, cs, heq, hc⟩
  · unfold pyRStrip
    rw [hnil]
    rfl
  · exfalso
    have hmem : c ∈ pyRStrip s := by
      unfold pyRStrip
      rw [heq]
      simp
    exact absurd (hall c hmem) (by rw [hc]; exact Bool.false_ne_true)

theorem pyRStrip_append_of_last (A B : List Char)
    (hA : ∃ c cs, A.reverse = c :: cs ∧ pyIsSpace c = false) :
    pyRStrip (A ++ B) = A ++ pyRStrip B := by
  obtain ⟨c, cs, hrev, hc⟩ := hA
  unfold pyRStrip
  rw [List.reverse_append, List.dropWhile_append]
  by_cases hB : (B.reverse.dropWhile pyIsSpace).isEmpty = true
  · have hBnil : B.reverse.dropWhile pyIsSpace = [] := List.isEmpty_iff.mp hB
    rw [if_pos hB, hrev, List.dropWhile_cons, hc, if_neg Bool.false_ne_true, hBnil]
    rw [← hrev, List.reverse_reverse]
    simp
  · rw [if_neg hB]
    simp

theorem merge_changelog_step (old p : List Char) :
    lineCount (pyRStrip old) ≤ lineCount (pyRStrip (merge_changelog old p)) := by
  unfold merge_changelog
  by_cases h1 : (p = [] || pyContains p noChangeStr) = true
  · rw [if_pos h1]
  · rw [if_neg h1]
    by_cases h2 : pyStrip old = []
    · rw [if_pos h2, pyStrip_nil_rstrip_nil old h2]
      exact lineCount_pos _
    · rw [if_neg h2]
      have hA : ∃ c cs, (pyRStrip old).reverse = c :: cs ∧ pyIsSpace c = false := by
        rcases dropWhile_head_not pyIsSpace old.reverse with hnil | ⟨c, cs, heq, hc⟩
        · exfalso
          apply h2
          unfold pyStrip pyRStrip
          rw [hnil]
          rfl
        · exact ⟨c, cs, by unfold pyRStrip; rw [List.reverse_reverse, heq], hc⟩
      rw [pyRStrip_append_of_last _ _ hA, lineCount_append]
      omega

theorem merge_changelog_fold (patches : List (List Char)) (old : List Char) :
    lineCount (pyRStrip old) ≤ lineCount (pyRStrip (patches.foldl merge_changelog old)) := by
  induction patches generalizing old with
  | nil => exact le_refl _
  | cons p ps ih =>
    rw [List.foldl_cons]
    exact le_trans (merge_changelog_step old p) (ih (merge_changelog old p))

theorem lineCount_rstrip_le (s : List Char) : lineCount (pyRStrip s) ≤ lineCount s := by
  have hdecomp : s = pyRStrip s ++ (s.reverse.takeWhile pyIsSpace).reverse := by
    unfold pyRStrip
    rw [← List.reverse_append, List.takeWhile_append_dropWhile, List.reverse_reverse]
  conv_rhs => rw [hdecomp]
  rw [lineCount_append]
  omega

/-- C5 (amended): for every prior changelog body and every sequence of
non-empty patches not containing `[NO_CHANGE]`, repeated application of the
changelog merge only appends, so the resulting body's line count is at least
the line count of the prior body *after trailing-whitespace removal*
(`rstrip`); the unrestricted claim fails because the merge right-strips the
prior body before appending, collapsing trailing blank lines. -/
theorem C5_changelog_monotonic (old : List Char) (patches : List (List Char))
    (_h : ∀ p ∈ patches, p ≠ [] ∧ pyContains p noChangeStr = false) :
    lineCount (pyRStrip old) ≤ lineCount (patches.foldl merge_changelog old) :=
  le_trans (merge_changelog_fold patches old) (lineCount_rstrip_le _)

/-- C5, counterexample: a prior changelog body with trailing blank lines,
`"a\n\n\n"` (4 lines), merged with the single non-empty patch `"x"`, yields
`"a\nx"` (2 lines): the line count strictly decreases, refuting the claim as
stated. -/
theorem C5_counterexample :
    ((("x".toList : List Char) ≠ [] ∧ pyContains ("x".toList) noChangeStr = false)) ∧
    ([("x".toList)].foldl merge_changelog ("a\n\n\n".toList) = ("a\nx".toList)) ∧
    lineCount ("a\nx".toList) = 2 ∧ lineCount ("a\n\n\n".toList) = 4 ∧
    ¬ (lineCount ("a\n\n\n".toList)
        ≤ lineCount ([("x".toList)].foldl merge_changelog ("a\n\n\n".toList))) := by
  decide

/-- C5 witness: the amended bound applied to the same concrete input. -/
theorem C5_witness :
    (∀ p ∈ [("x".toList)], p ≠ ([] : List Char) ∧ pyContains p noChangeStr = false) ∧
    lineCount (pyRStrip ("a\n\n\n".toList))
      ≤ lineCount ([("x".toList)].foldl merge_changelog ("a\n\n\n".toList)) :=
  ⟨by decide, C5_changelog_monotonic ("a\n\n\n".toList) [("x".toList)] (by decide)⟩

/-! ## `document_generator_node.py`: the markdown section model

`_normalize_section_key` (lines 176-182), `_parse_markdown_sections`
(lines 184-213) and `_merge_sections` (lines 215-222).

The heading regex `^##\s+(.+)$` (MULTILINE) matches, on any line that starts
with `##` followed by at least one whitespace character and at least one
further character on the same line, that line with the post-`##` text as the
capture; the parser is therefore modelled line-wise: the document is split on
`'\n'`, heading lines delimit sections, and a section's body — the character
slice between the end of its heading line and the start of the next heading
line, stripped — equals the strip of the newline-join of the lines in
between.  One caveat: because `\s` also matches newlines, on a line consisting
of `##` plus trailing whitespace only, the regex's `\s+` can run across the
line break and capture text from a later line.  The line-wise model is
faithful to the source on every document with no such `##`-plus-whitespace-only
line (the claims settled against this model stay within that domain: their
canonical-form hypotheses require every heading to carry non-whitespace text
on its own line and every body line not to begin with `##` plus whitespace). -/

/-- `SECTION_KEY_MAP` (insertion order is the dict's iteration order). -/
def SECTION_KEY_MAP : List (List Char × List (List Char)) :=
  [("overview".toList, ["project overview".toList, "overview".toList]),
   ("architecture".toList, ["architecture".toList, "system design".toList]),
   ("modules".toList, ["key modules".toList, "modules".toList]),
   ("changelog".toList, ["changelog".toList, "change log".toList, "recent changes".toList])]

/-- The character class `[a-z0-9]` of the slug regex. -/
def isLowerDigit (c : Char) : Bool :=
  ('a' ≤ c && c ≤ 'z') || ('0' ≤ c && c ≤ '9')

/-- Scanner for `re.sub(r'[^a-z0-9]+', '_', s)`: each maximal run of
characters outside `[a-z0-9]` becomes a single underscore (`inRun` tracks
being inside such a run). -/
def slugGo : List Char → Bool → List Char
  | [], _ => []
  | c :: rest, inRun =>
    if isLowerDigit c then c :: slugGo rest false
    else if inRun then slugGo rest true
    else '_' :: slugGo rest true

/-- Python `s.strip('_')`. -/
def stripUnderscore (s : List Char) : List Char :=
  ((s.dropWhile (fun c => c = '_')).reverse.dropWhile (fun c => c = '_')).reverse

/-- `_normalize_section_key(heading)`: first canonical key one of whose
variants occurs in the lowered heading, else the slug (collapsed to
underscores, underscore-stripped, truncated to 40). -/
def normalize_section_key (heading : List Char) : List Char :=
  let lower := pyToLower heading
  match SECTION_KEY_MAP.find? (fun kv => kv.2.any (fun v => pyContains lower v)) with
  | some kv => kv.1
  | none => (stripUnderscore (slugGo lower false)).take 40

/-- The lines matched by `^##\s+(.+)$`: `##`, then at least one whitespace
character, then at least one more character (which `.` allows to be
whitespace). -/
def isHeadingLine : List Char → Bool
  | '#' :: '#' :: c :: _ :: _ => pyIsSpace c
  | _ => false

/-- `m.group(1).strip()`: the capture is the heading line after `##` and the
greedy `\s+`, so its strip equals the strip of everything after `##`. -/
def headingText (l : List Char) : List Char :=
  pyStrip (l.drop 2)

/-- Walk the lines after a heading line `h`, accumulating body lines (in
reverse) until the next heading line; emits `(heading line, body lines)`
pairs. -/
def gatherGo : List (List Char) → List Char → List (List Char) →
    List (List Char × List (List Char))
  | [], h, acc => [(h, acc.reverse)]
  | l :: ls, h, acc =>
    if isHeadingLine l then (h, acc.reverse) :: gatherGo ls l []
    else gatherGo ls h (l :: acc)

/-- Group a line list into `(heading line, body lines)` sections; lines before
the first heading belong to no section (the regex matches give no section for
them, mirroring the character offsets of the source). -/
def gatherSections : List (List Char) → List (List Char × List (List Char))
  | [] => []
  | l :: ls => if isHeadingLine l then gatherGo ls l [] else gatherSections ls

/-- Python `str(n)` for a natural number (decimal). -/
def pyNatRepr (n : Nat) : List Char :=
  if n = 0 then ['0'] else ((Nat.digits 10 n).map Nat.digitChar).reverse

/-- Python `key in dict` over the dict's item list. -/
def containsKey {α : Type} (m : List (List Char × α)) (k : List Char) : Bool :=
  m.any (fun kv => kv.1 == k)

/-- The `while unique_key in sections` loop: try `key_2`, `key_3`, … until a
free key is found.  Fuel `sections.length + 1` suffices: that many distinct
candidates cannot all be among the `sections.length` existing keys (on fuel
exhaustion, which is unreachable, the bare key is returned). -/
def uniquifyGo {α : Type} (key : List Char) (secs : List (List Char × α)) :
    Nat → Nat → List Char
  | _, 0 => key
  | suffix, fuel + 1 =>
    let cand := key ++ '_' :: pyNatRepr suffix
    if containsKey secs cand then uniquifyGo key secs (suffix + 1) fuel else cand

/-- The duplicate-key avoidance of `_parse_markdown_sections`: the bare key
when free, else the first free suffixed candidate starting from `key_2`. -/
def uniquify {α : Type} (key : List Char) (secs : List (List Char × α)) : List Char :=
  if containsKey secs key then uniquifyGo key secs 2 (secs.length + 1) else key

/-- `ParsedDocument(sections, order, headings)`; the two dicts are item lists
in insertion order (their keys are unique by construction). -/
structure ParsedDocument where
  sections : List (List Char × List Char)
  order : List (List Char)
  headings : List (List Char × List Char)

/-- The `for idx, m in enumerate(matches)` loop of `_parse_markdown_sections`:
normalize the heading to a key, make it unique, store body/order/heading. -/
def buildParsedGo : List (List Char × List (List Char)) → ParsedDocument → ParsedDocument
  | [], acc => acc
  | (h, bls) :: rest, acc =>
    let heading := headingText h
    let key := normalize_section_key heading
    let ukey := uniquify key acc.sections
    let body := pyStrip (pyJoinChar '\n' bls)
    buildParsedGo rest
      ⟨acc.sections ++ [(ukey, body)], acc.order ++ [ukey], acc.headings ++ [(ukey, heading)]⟩

/-- `'__full__'`. -/
def fullKey : List Char := "__full__".toList

/-- `_parse_markdown_sections(content)`. -/
def parse_markdown_sections (content : List Char) : ParsedDocument :=
  if (pySplitChar '\n' content).any isHeadingLine then
    buildParsedGo (gatherSections (pySplitChar '\n' content)) ⟨[], [], []⟩
  else ⟨[(fullKey, content)], [fullKey], [(fullKey, ("Document".toList))]⟩

/-- Python `str.title()` (ASCII model): the first character of each maximal
letter run is uppercased, the rest lowered. -/
def pyTitleGo : List Char → Bool → List Char
  | [], _ => []
  | c :: rest, prevAlpha =>
    if c.isAlpha then
      (if prevAlpha then c.toLower else c.toUpper) :: pyTitleGo rest true
    else c :: pyTitleGo rest false

/-- Python `str.title()`. -/
def pyTitle (s : List Char) : List Char :=
  pyTitleGo s false

/-- Python `dict.get` over an item list with unique keys. -/
def assocGet {α : Type} (m : List (List Char × α)) (k : List Char) : Option α :=
  (m.find? (fun kv => kv.1 == k)).map (fun kv => kv.2)

/-- `_merge_sections(parsed, updated)`: re-serialize in discovery order,
substituting updated bodies, defaulting the heading to
`key.replace('_',' ').title()`. -/
def merge_sections (p : ParsedDocument) (updated : List (List Char × List Char)) : List Char :=
  pyStrip (pyJoinChar '\n' (p.order.map (fun key =>
    let heading := (assocGet p.headings key).getD
      (pyTitle (pyReplace key ("_".toList) (" ".toList)))
    let body := (assocGet updated key).getD ((assocGet p.sections key).getD [])
    ("## ".toList) ++ heading ++ '\n' :: pyStrip body ++ ['\n'])))

/-- C2, counterexample: the document `"## A\n\nbody"` has a second-level
heading, yet `merge(parse(doc), {})` returns `"## A\nbody"`: the blank line
between the heading and the body — interior whitespace, not trailing — is
lost, so the round trip is not byte-identical modulo trailing-whitespace
normalization (neither whole-document `rstrip` nor per-line `rstrip`
reconciles the two). -/
theorem C2_counterexample :
    (pySplitChar '\n' ("## A\n\nbody".toList)).any isHeadingLine = true ∧
    merge_sections (parse_markdown_sections ("## A\n\nbody".toList)) []
      = ("## A\nbody".toList) ∧
    ¬ merge_sections (parse_markdown_sections ("## A\n\nbody".toList)) []
        = ("## A\n\nbody".toList) ∧
    ¬ pyRStrip (merge_sections (parse_markdown_sections ("## A\n\nbody".toList)) [])
        = pyRStrip ("## A\n\nbody".toList) ∧
    ¬ (pySplitChar '\n'
          (merge_sections (parse_markdown_sections ("## A\n\nbody".toList)) [])).map pyRStrip
        = (pySplitChar '\n' ("## A\n\nbody".toList)).map pyRStrip := by
  refine ⟨by decide, by decide, by decide, by decide, by decide⟩

theorem pySplitChar_not_mem (sep : Char) (s : List Char) :
    ∀ l ∈ pySplitChar sep s, sep ∉ l := by
  induction s with
  | nil =>
    intro l hl
    simp [pySplitChar] at hl
    simp [hl]
  | cons c rest ih =>
    intro l hl
    by_cases hc : c = sep
    · subst hc
      rw [pySplitChar_cons_sep] at hl
      rcases List.mem_cons.mp hl with rfl | hl2
      · simp
      · exact ih l hl2
    · obtain ⟨x, xs, h1, h2⟩ := pySplitChar_cons_ne sep c rest hc
      rw [h2] at hl
      rcases List.mem_cons.mp hl with rfl | hl2
      · intro hmem
        rcases List.mem_cons.mp hmem with rfl | hmem2
        · exact hc rfl
        · exact ih x (h1 ▸ List.mem_cons_self x xs) hmem2
      · exact ih l (h1 ▸ List.mem_cons_of_mem x hl2)

theorem pyJoinChar_split (sep : Char) (s : List Char) :
    pyJoinChar sep (pySplitChar sep s) = s := by
  induction s with
  | nil => rfl
  | cons c rest ih =>
    by_cases hc : c = sep
    · subst hc
      rw [pySplitChar_cons_sep]
      cases h : pySplitChar c rest with
      | nil => exact absurd h (pySplitChar_ne_nil _ _)
      | cons x xs =>
        rw [h] at ih
        simpa [pyJoinChar] using ih
    · obtain ⟨x, xs, h1, h2⟩ := pySplitChar_cons_ne sep c rest hc
      rw [h2]
      rw [h1] at ih
      cases xs with
      | nil =>
        simp only [pyJoinChar] at ih ⊢
        rw [ih]
      | cons y ys =>
        simp only [pyJoinChar] at ih ⊢
        rw [List.cons_append, ih]

theorem pyJoinChar_cons (sep : Char) (l : List Char) (ls : List (List Char)) (h : ls ≠ []) :
    pyJoinChar sep (l :: ls) = l ++ sep :: pyJoinChar sep ls := by
  cases ls with
  | nil => exact absurd rfl h
  | cons y ys => rfl

theorem pyJoinChar_append (sep : Char) (xs ys : List (List Char))
    (hx : xs ≠ []) (hy : ys ≠ []) :
    pyJoinChar sep (xs ++ ys) = pyJoinChar sep xs ++ sep :: pyJoinChar sep ys := by
  induction xs with
  | nil => exact absurd rfl hx
  | cons x xt ih =>
    cases xt with
    | nil =>
      rw [List.cons_append, List.nil_append, pyJoinChar_cons sep x ys hy]
      rfl
    | cons z zs =>
      rw [List.cons_append,
        pyJoinChar_cons sep x ((z :: zs) ++ ys) (by simp),
        pyJoinChar_cons sep x (z :: zs) (by simp),
        ih (by simp)]
      simp

theorem pyJoinChar_concat_nil (sep : Char) (xs : List (List Char)) (hx : xs ≠ []) :
    pyJoinChar sep (xs ++ [[]]) = pyJoinChar sep xs ++ [sep] := by
  rw [pyJoinChar_append sep xs [[]] hx (by simp)]
  rfl

theorem pySplitChar_single (sep : Char) (l : List Char) (h : sep ∉ l) :
    pySplitChar sep l = [l] := by
  induction l with
  | nil => rfl
  | cons c rest ih =>
    have hc : ¬ c = sep := fun he => h (he ▸ List.mem_cons_self c rest)
    obtain ⟨x, xs, h1, h2⟩ := pySplitChar_cons_ne sep c rest hc
    have hx : x :: xs = [rest] := h1.symm.trans (ih (fun hm => h (List.mem_cons_of_mem c hm)))
    injection hx with hx1 hx2
    subst hx1
    subst hx2
    exact h2

theorem pySplitChar_append_sep (sep : Char) (l t : List Char) (h : sep ∉ l) :
    pySplitChar sep (l ++ sep :: t) = l :: pySplitChar sep t := by
  induction l with
  | nil => exact pySplitChar_cons_sep sep t
  | cons c cs ih =>
    have hc : ¬ c = sep := fun he => h (he ▸ List.mem_cons_self c cs)
    obtain ⟨x, xs, h1, h2⟩ := pySplitChar_cons_ne sep c (cs ++ sep :: t) hc
    have hx : x :: xs = cs :: pySplitChar sep t :=
      h1.symm.trans (ih (fun hm => h (List.mem_cons_of_mem c hm)))
    injection hx with hx1 hx2
    subst hx1
    subst hx2
    exact h2

theorem pySplitChar_join (sep : Char) (ls : List (List Char)) (hne : ls ≠ [])
    (hmem : ∀ l ∈ ls, sep ∉ l) :
    pySplitChar sep (pyJoinChar sep ls) = ls := by
  induction ls with
  | nil => exact absurd rfl hne
  | cons l lt ih =>
    cases lt with
    | nil => exact pySplitChar_single sep l (hmem l (List.mem_cons_self l []))
    | cons m ms =>
      rw [pyJoinChar_cons sep l (m :: ms) (by simp),
        pySplitChar_append_sep sep l (pyJoinChar sep (m :: ms))
          (hmem l (List.mem_cons_self l (m :: ms))),
        ih (by simp) (fun x hx => hmem x (List.mem_cons_of_mem l hx))]

theorem length_dropWhile_le' (p : Char → Bool) (l : List Char) :
    (l.dropWhile p).length ≤ l.length :=
  List.Sublist.length_le (List.dropWhile_sublist p)

theorem pyRStrip_eq_self_of_last (s : List Char)
    (h : ∃ c cs, s.reverse = c :: cs ∧ pyIsSpace c = false) :
    pyRStrip s = s := by
  obtain ⟨c, cs, hrev, hc⟩ := h
  unfold pyRStrip
  rw [hrev, List.dropWhile_cons, hc, if_neg Bool.false_ne_true, ← hrev,
    List.reverse_reverse]

theorem pyLStrip_cons_of_not (c : Char) (t : List Char) (hc : pyIsSpace c = false) :
    pyLStrip (c :: t) = c :: t := by
  unfold pyLStrip
  rw [List.dropWhile_cons, hc, if_neg Bool.false_ne_true]

theorem pyRStrip_decomp (s : List Char) : ∃ t, s = pyRStrip s ++ t := by
  refine ⟨(s.reverse.takeWhile pyIsSpace).reverse, ?_⟩
  unfold pyRStrip
  rw [← List.reverse_append, List.takeWhile_append_dropWhile, List.reverse_reverse]

theorem pyRStrip_ws_tail (t : List Char) (c : Char) (hc : pyIsSpace c = true) :
    pyRStrip (t ++ [c]) = pyRStrip t := by
  unfold pyRStrip
  rw [List.reverse_append]
  simp [List.dropWhile_cons, hc]

theorem pyStrip_ws_tail (t : List Char) (c : Char) (hc : pyIsSpace c = true) :
    pyStrip (t ++ [c]) = pyStrip t := by
  unfold pyStrip
  rw [pyRStrip_ws_tail t c hc]

theorem pyStrip_self_last (s : List Char) (h : pyStrip s = s) :
    s = [] ∨ ∃ c cs, s.reverse = c :: cs ∧ pyIsSpace c = false := by
  cases hs : s.reverse with
  | nil =>
    left
    simpa using congrArg List.reverse hs
  | cons c cs =>
    by_cases hc : pyIsSpace c = true
    · exfalso
      have hlen : (pyRStrip s).length < s.length := by
        unfold pyRStrip
        rw [hs, List.dropWhile_cons, hc, if_pos rfl]
        have h1 : (cs.dropWhile pyIsSpace).length ≤ cs.length := length_dropWhile_le' _ _
        have h2 : s.length = cs.length + 1 := by
          have := congrArg List.length hs
          simpa using this
        simp only [List.length_reverse]
        omega
      have hlen2 : (pyStrip s).length ≤ (pyRStrip s).length := by
        unfold pyStrip pyLStrip
        exact length_dropWhile_le' _ _
      rw [h] at hlen2
      omega
    · right
      exact ⟨c, cs, rfl, Bool.eq_false_iff.mpr hc⟩

theorem pyStrip_self_head (s : List Char) (h : pyStrip s = s) :
    s = [] ∨ ∃ c cs, s = c :: cs ∧ pyIsSpace c = false := by
  cases hs : s with
  | nil => exact Or.inl rfl
  | cons c cs =>
    by_cases hc : pyIsSpace c = true
    · exfalso
      obtain ⟨t, ht⟩ := pyRStrip_decomp s
      have hlen : (pyStrip s).length < s.length := by
        unfold pyStrip pyLStrip
        cases hr : pyRStrip s with
        | nil =>
          have hsl : 0 < s.length := by
            rw [hs]
            simp
          simpa [hr] using hsl
        | cons d ds =>
          have hd : d = c := by
            rw [hr, hs] at ht
            injection ht with h1 h2
            exact h1.symm
          rw [List.dropWhile_cons, hd, hc, if_pos rfl]
          have h1 : (ds.dropWhile pyIsSpace).length ≤ ds.length := length_dropWhile_le' _ _
          have h2 : (d :: ds).length ≤ s.length := by
            conv_rhs => rw [ht]
            rw [hr]
            simp
          simp only [List.length_cons] at h2
          omega
      rw [h] at hlen
      omega
    · exact Or.inr ⟨c, cs, rfl, Bool.eq_false_iff.mpr hc⟩

/-- Drop trailing empty lines. -/
def dropTrailEmpty (ls : List (List Char)) : List (List Char) :=
  (ls.reverse.dropWhile (fun l => l.isEmpty)).reverse

theorem dropTrailEmpty_concat_nil (xs : List (List Char)) :
    dropTrailEmpty (xs ++ [[]]) = dropTrailEmpty xs := by
  unfold dropTrailEmpty
  rw [List.reverse_append]
  rfl

theorem dropTrailEmpty_cons_ne (x : List Char) (rest : List (List Char)) (hx : x ≠ []) :
    dropTrailEmpty (x :: rest) = x :: dropTrailEmpty rest := by
  unfold dropTrailEmpty
  have hxe : x.isEmpty = false := by
    cases x with
    | nil => exact absurd rfl hx
    | cons a t => rfl
  rw [List.reverse_cons, List.dropWhile_append]
  by_cases hb : (rest.reverse.dropWhile (fun l => l.isEmpty)).isEmpty = true
  · have : rest.reverse.dropWhile (fun l => l.isEmpty) = [] := List.isEmpty_iff.mp hb
    rw [if_pos hb, this]
    simp [List.dropWhile_cons, hxe]
  · rw [if_neg hb]
    simp

theorem dropTrailEmpty_concat_ne (xs : List (List Char)) (x : List Char) (hx : x ≠ []) :
    dropTrailEmpty (xs ++ [x]) = xs ++ [x] := by
  unfold dropTrailEmpty
  have hxe : x.isEmpty = false := by
    cases x with
    | nil => exact absurd rfl hx
    | cons a t => rfl
  rw [List.reverse_append]
  simp only [List.reverse_cons, List.reverse_nil, List.nil_append, List.singleton_append,
    List.dropWhile_cons, hxe, Bool.false_eq_true, if_false]
  simp

theorem dropTrailEmpty_append_of_mem (xs ys : List (List Char))
    (h : ∃ y ∈ ys, y ≠ []) :
    dropTrailEmpty (xs ++ ys) = xs ++ dropTrailEmpty ys := by
  unfold dropTrailEmpty
  have hne : ys.reverse.dropWhile (fun l => l.isEmpty) ≠ [] := by
    intro hnil
    obtain ⟨y, hy, hyne⟩ := h
    have := List.dropWhile_eq_nil_iff.mp hnil y (List.mem_reverse.mpr hy)
    exact hyne (List.isEmpty_iff.mp this)
  rw [List.reverse_append, List.dropWhile_append]
  have hb : (ys.reverse.dropWhile (fun l => l.isEmpty)).isEmpty = false := by
    cases hyy : ys.reverse.dropWhile (fun l => l.isEmpty) with
    | nil => exact absurd hyy hne
    | cons a t => rfl
  rw [if_neg (by rw [hb]; exact Bool.false_ne_true)]
  simp

theorem pyRStrip_join_dropTrail (ls : List (List Char))
    (H : ∀ ll, (dropTrailEmpty ls).getLast? = some ll →
      ∃ c cs, ll.reverse = c :: cs ∧ pyIsSpace c = false) :
    pyRStrip (pyJoinChar '\n' ls) = pyJoinChar '\n' (dropTrailEmpty ls) := by
  induction ls using List.reverseRecOn with
  | nil => rfl
  | append_singleton ys x ih =>
    by_cases hx : x = []
    · subst hx
      rw [dropTrailEmpty_concat_nil] at H ⊢
      cases ys with
      | nil => rfl
      | cons z zs =>
        rw [pyJoinChar_concat_nil '\n' (z :: zs) (by simp),
          pyRStrip_ws_tail _ '\n' (by decide)]
        exact ih H
    · rw [dropTrailEmpty_concat_ne ys x hx] at H ⊢
      have hlast := H x (List.getLast?_concat ys)
      obtain ⟨c, cs, hcx, hc⟩ := hlast
      cases ys with
      | nil =>
        exact pyRStrip_eq_self_of_last x ⟨c, cs, hcx, hc⟩
      | cons z zs =>
        rw [pyJoinChar_append '\n' (z :: zs) [x] (by simp) (by simp)]
        refine pyRStrip_eq_self_of_last _ ⟨c, cs ++ '\n' :: (pyJoinChar '\n' (z :: zs)).reverse, ?_, hc⟩
        rw [List.reverse_append]
        simp only [pyJoinChar, List.reverse_cons]
        rw [hcx]
        simp

theorem pyStrip_cons_ws (c : Char) (t : List Char) (hc : pyIsSpace c = true) :
    pyStrip (c :: t) = pyStrip t := by
  unfold pyStrip pyRStrip
  rw [List.reverse_cons, List.dropWhile_append]
  by_cases hb : (t.reverse.dropWhile pyIsSpace).isEmpty = true
  · have hnil : t.reverse.dropWhile pyIsSpace = [] := List.isEmpty_iff.mp hb
    rw [if_pos hb, hnil]
    simp [List.dropWhile_cons, hc, pyLStrip]
  · rw [if_neg hb]
    rw [List.reverse_append]
    simp only [List.reverse_cons, List.reverse_nil, List.nil_append, List.singleton_append]
    unfold pyLStrip
    rw [List.dropWhile_cons, hc, if_pos rfl]

theorem pyStrip_join_dropTrail (ls : List (List Char))
    (H : ∀ ll, (dropTrailEmpty ls).getLast? = some ll →
      ∃ c cs, ll.reverse = c :: cs ∧ pyIsSpace c = false)
    (c : Char) (u : List Char) (rest' : List (List Char))
    (hhead : dropTrailEmpty ls = (c :: u) :: rest') (hc : pyIsSpace c = false) :
    pyStrip (pyJoinChar '\n' ls) = pyJoinChar '\n' (dropTrailEmpty ls) := by
  unfold pyStrip
  rw [pyRStrip_join_dropTrail ls H, hhead]
  cases rest' with
  | nil => exact pyLStrip_cons_of_not c u hc
  | cons r rs =>
    rw [pyJoinChar_cons '\n' (c :: u) (r :: rs) (by simp), List.cons_append]
    exact pyLStrip_cons_of_not c _ hc

/-- The canonical serialized block: `## H` + newline + stripped body + newline
(what one iteration of `_merge_sections` emits for heading `H` and body `B`). -/
def renderBlock (s : List Char × List Char) : List Char :=
  ("## ".toList) ++ s.1 ++ '\n' :: pyStrip s.2 ++ ['\n']

/-- The canonical serialized document for a section list: exactly the output
shape of `_merge_sections` (blocks joined by `'\n'`, overall strip). -/
def renderDoc (l : List (List Char × List Char)) : List Char :=
  pyStrip (pyJoinChar '\n' (l.map renderBlock))

/-- Lines that begin like a heading (`##` + whitespace), whether or not they
carry content; bodies in canonical form exclude these so that the `\s+` of the
heading regex cannot act across line breaks (see the section comment). -/
def isHeadingStart : List Char → Bool
  | '#' :: '#' :: c :: _ => pyIsSpace c
  | _ => false

/-- Canonical form for a section list `(heading, body)`: nonempty; headings
stripped, nonempty and newline-free; bodies stripped with no line that begins
like a heading. -/
def CanonicalSections (l : List (List Char × List Char)) : Prop :=
  l ≠ [] ∧ ∀ hb ∈ l,
    pyStrip hb.1 = hb.1 ∧ hb.1 ≠ [] ∧ '\n' ∉ hb.1 ∧ pyStrip hb.2 = hb.2 ∧
    ∀ bl ∈ pySplitChar '\n' hb.2, isHeadingStart bl = false

/-- The line sequence of the un-stripped serialization: per section the
heading line, the body lines, and the blank separator line. -/
def interLines : List (List Char × List Char) → List (List Char)
  | [] => []
  | s :: rest => (("## ".toList) ++ s.1) :: (pySplitChar '\n' s.2 ++ [] :: interLines rest)

/-- `interLines` with the trailing blank (and the lone blank line of an empty
last body) removed: the line sequence of the stripped serialization. -/
def interLinesTrim : List (List Char × List Char) → List (List Char)
  | [] => []
  | [s] => (("## ".toList) ++ s.1) :: (if s.2 = [] then [] else pySplitChar '\n' s.2)
  | s :: rest => (("## ".toList) ++ s.1) :: (pySplitChar '\n' s.2 ++ [] :: interLinesTrim rest)

theorem isHeadingLine_render (H : List Char) (hne : H ≠ []) :
    isHeadingLine (("## ".toList) ++ H) = true := by
  cases H with
  | nil => exact absurd rfl hne
  | cons h t => rfl

theorem isHeadingLine_imp_start (l : List Char) (h : isHeadingLine l = true) :
    isHeadingStart l = true := by
  cases l with
  | nil => exact absurd h (by decide)
  | cons a l1 =>
    cases l1 with
    | nil => exact absurd h (by simp [isHeadingLine])
    | cons b l2 =>
      cases l2 with
      | nil => exact absurd h (by simp [isHeadingLine])
      | cons c l3 =>
        cases l3 with
        | nil => exact absurd h (by simp [isHeadingLine])
        | cons d l4 =>
          unfold isHeadingLine at h
          unfold isHeadingStart
          split at h
          next => simp_all [isHeadingStart]
          next => exact absurd h (by simp)

theorem headingText_render (H : List Char) (hs : pyStrip H = H) :
    headingText (("## ".toList) ++ H) = H := by
  unfold headingText
  have : (("## ".toList) ++ H).drop 2 = ' ' :: H := rfl
  rw [this, pyStrip_cons_ws ' ' H (by decide), hs]

theorem pySplitChar_last_ne_nil (B : List Char) (hB : pyStrip B = B) (hne : B ≠ []) :
    ∃ init ll, pySplitChar '\n' B = init ++ [ll] ∧ ll ≠ [] := by
  rcases List.eq_nil_or_concat (pySplitChar '\n' B) with hnil | ⟨init, ll, hsplit⟩
  · exact absurd hnil (pySplitChar_ne_nil _ _)
  · rw [List.concat_eq_append] at hsplit
    refine ⟨init, ll, hsplit, ?_⟩
    intro hll
    subst hll
    have hjoin := pyJoinChar_split '\n' B
    rw [hsplit] at hjoin
    cases init with
    | nil =>
      rw [← hjoin] at hne
      exact hne rfl
    | cons i it =>
      rw [pyJoinChar_concat_nil '\n' (i :: it) (by simp)] at hjoin
      rcases pyStrip_self_last B hB with hBnil | ⟨c, cs, hrev, hc⟩
      · exact hne hBnil
      · rw [← hjoin] at hrev
        rw [List.reverse_append] at hrev
        simp only [List.reverse_cons, List.reverse_nil, List.nil_append,
          List.singleton_append] at hrev
        injection hrev with h1 h2
        rw [← h1] at hc
        exact absurd hc (by decide)

theorem dropTrailEmpty_interLines (l : List (List Char × List Char))
    (hc : CanonicalSections l) :
    dropTrailEmpty (interLines l) = interLinesTrim l := by
  obtain ⟨hne, hmem⟩ := hc
  induction l with
  | nil => exact absurd rfl hne
  | cons s rest ih =>
    obtain ⟨hs1, hs2, hs3, hs4, hs5⟩ := hmem s (List.mem_cons_self s rest)
    have hhead : ("## ".toList) ++ s.1 ≠ [] := by simp
    cases rest with
    | nil =>
      have h1 : interLines [s] = (("## ".toList) ++ s.1) :: (pySplitChar '\n' s.2 ++ [[]]) := by
        unfold interLines
        rfl
      rw [h1, dropTrailEmpty_cons_ne _ _ hhead, dropTrailEmpty_concat_nil]
      unfold interLinesTrim
      by_cases hB : s.2 = []
      · rw [if_pos hB, hB]
        rfl
      · rw [if_neg hB]
        obtain ⟨init, ll, hsplit, hll⟩ := pySplitChar_last_ne_nil s.2 hs4 hB
        rw [hsplit, dropTrailEmpty_concat_ne init ll hll]
    | cons s2 rest2 =>
      have hih := ih (by simp) (fun hb hmem2 => hmem hb (List.mem_cons_of_mem s hmem2))
      show dropTrailEmpty ((("## ".toList) ++ s.1) ::
        (pySplitChar '\n' s.2 ++ [] :: interLines (s2 :: rest2)))
        = (("## ".toList) ++ s.1) ::
          (pySplitChar '\n' s.2 ++ [] :: interLinesTrim (s2 :: rest2))
      rw [dropTrailEmpty_cons_ne _ _ hhead]
      have hmem2 : ∃ y ∈ interLines (s2 :: rest2), y ≠ [] := by
        refine ⟨("## ".toList) ++ s2.1, ?_, by simp⟩
        unfold interLines
        exact List.mem_cons_self _ _
      have hsplit2 : pySplitChar '\n' s.2 ++ [] :: interLines (s2 :: rest2)
          = (pySplitChar '\n' s.2 ++ [[]]) ++ interLines (s2 :: rest2) := by
        simp
      rw [hsplit2, dropTrailEmpty_append_of_mem _ _ hmem2, hih]
      simp

theorem join_renderBlocks_eq_interLines (l : List (List Char × List Char))
    (hne : l ≠ []) (hstrip : ∀ s ∈ l, pyStrip s.2 = s.2) :
    pyJoinChar '\n' (l.map renderBlock) = pyJoinChar '\n' (interLines l) := by
  induction l with
  | nil => exact absurd rfl hne
  | cons s rest ih =>
    have hs := hstrip s (List.mem_cons_self s rest)
    cases rest with
    | nil =>
      have h1 : interLines [s] = (("## ".toList) ++ s.1) :: (pySplitChar '\n' s.2 ++ [[]]) := rfl
      rw [h1, List.map_singleton]
      rw [pyJoinChar_cons '\n' _ (pySplitChar '\n' s.2 ++ [[]]) (by simp),
        pyJoinChar_concat_nil '\n' _ (pySplitChar_ne_nil _ _), pyJoinChar_split]
      simp [pyJoinChar, renderBlock, hs]
    | cons s2 rest2 =>
      have hIL : interLines (s2 :: rest2) ≠ [] := by
        unfold interLines
        simp
      rw [List.map_cons,
        pyJoinChar_cons '\n' (renderBlock s) _ (by simp),
        ih (by simp) (fun x hx => hstrip x (List.mem_cons_of_mem s hx))]
      show _ = pyJoinChar '\n' ((("## ".toList) ++ s.1) ::
        (pySplitChar '\n' s.2 ++ [] :: interLines (s2 :: rest2)))
      rw [pyJoinChar_cons '\n' _ (pySplitChar '\n' s.2 ++ [] :: interLines (s2 :: rest2))
          (by simp),
        pyJoinChar_append '\n' (pySplitChar '\n' s.2) ([] :: interLines (s2 :: rest2))
          (pySplitChar_ne_nil _ _) (by simp),
        pyJoinChar_cons '\n' [] (interLines (s2 :: rest2)) hIL,
        pyJoinChar_split]
      simp [renderBlock, hs]

theorem interLinesTrim_last_ok (l : List (List Char × List Char))
    (hcan : CanonicalSections l) :
    ∀ ll, (interLinesTrim l).getLast? = some ll →
      ∃ c cs, ll.reverse = c :: cs ∧ pyIsSpace c = false := by
  obtain ⟨hne, hmem⟩ := hcan
  induction l with
  | nil => exact absurd rfl hne
  | cons s rest ih =>
    obtain ⟨hs1, hs2, hs3, hs4, hs5⟩ := hmem s (List.mem_cons_self s rest)
    intro ll hll
    cases rest with
    | nil =>
      by_cases hB : s.2 = []
      · have h1 : interLinesTrim [s] = [("## ".toList) ++ s.1] := by
          unfold interLinesTrim
          rw [if_pos hB]
        rw [h1] at hll
        have hll2 : ("## ".toList) ++ s.1 = ll := by
          simpa using hll
        subst hll2
        rcases pyStrip_self_last s.1 hs1 with hnil | ⟨c, cs, hrev, hc⟩
        · exact absurd hnil hs2
        · refine ⟨c, cs ++ (" ##".toList), ?_, hc⟩
          rw [List.reverse_append, hrev]
          rfl
      · have h1 : interLinesTrim [s] = (("## ".toList) ++ s.1) :: pySplitChar '\n' s.2 := by
          unfold interLinesTrim
          rw [if_neg hB]
        obtain ⟨init, lll, hsplit, hlll⟩ := pySplitChar_last_ne_nil s.2 hs4 hB
        rw [h1, hsplit] at hll
        have : ((("## ".toList) ++ s.1) :: init ++ [lll]).getLast? = some lll :=
          List.getLast?_concat _
        rw [show (("## ".toList) ++ s.1) :: (init ++ [lll])
            = ((("## ".toList) ++ s.1) :: init) ++ [lll] by simp] at hll
        rw [List.getLast?_concat] at hll
        have hlleq : ll = lll := by simpa using hll.symm
        subst hlleq
        rcases pyStrip_self_last s.2 hs4 with hnil | ⟨c, cs, hrev, hc⟩
        · exact absurd hnil hB
        · have hjoin := pyJoinChar_split '\n' s.2
          rw [hsplit] at hjoin
          cases hlr : ll.reverse with
          | nil =>
            exfalso
            apply hlll
            simpa using congrArg List.reverse hlr
          | cons d ds =>
            refine ⟨d, ds, rfl, ?_⟩
            cases init with
            | nil =>
              simp only [List.nil_append, pyJoinChar] at hjoin
              rw [← hjoin] at hrev
              rw [hlr] at hrev
              injection hrev with h1 h2
              subst h1
              exact hc
            | cons i it =>
              rw [pyJoinChar_append '\n' (i :: it) [ll] (by simp) (by simp)] at hjoin
              have : s.2.reverse
                  = ll.reverse ++ '\n' :: (pyJoinChar '\n' (i :: it)).reverse := by
                rw [← hjoin]
                simp [pyJoinChar]
              rw [hrev, hlr] at this
              injection this with h1 h2
              subst h1
              exact hc
    | cons s2 rest2 =>
      have hILT : interLinesTrim (s2 :: rest2) ≠ [] := by
        cases rest2 with
        | nil => simp [interLinesTrim]
        | cons s3 rest3 => simp [interLinesTrim]
      have h1 : interLinesTrim (s :: s2 :: rest2)
          = (("## ".toList) ++ s.1) ::
            (pySplitChar '\n' s.2 ++ [] :: interLinesTrim (s2 :: rest2)) := rfl
      rw [h1] at hll
      rw [show (("## ".toList) ++ s.1) ::
          (pySplitChar '\n' s.2 ++ [] :: interLinesTrim (s2 :: rest2))
          = ((("## ".toList) ++ s.1) :: pySplitChar '\n' s.2 ++ [[]])
            ++ interLinesTrim (s2 :: rest2) by simp] at hll
      rw [List.getLast?_append_of_ne_nil _ hILT] at hll
      exact ih (by simp) (fun x hx => hmem x (List.mem_cons_of_mem s hx)) ll hll

theorem interLinesTrim_head (s : List Char × List Char)
    (rest : List (List Char × List Char)) :
    ∃ tail, interLinesTrim (s :: rest) = (("## ".toList) ++ s.1) :: tail := by
  cases rest with
  | nil => exact ⟨_, rfl⟩
  | cons s2 rest2 => exact ⟨_, rfl⟩

theorem interLinesTrim_nl_free (l : List (List Char × List Char))
    (hmem : ∀ hb ∈ l, '\n' ∉ hb.1) :
    ∀ x ∈ interLinesTrim l, '\n' ∉ x := by
  induction l with
  | nil =>
    intro x hx
    simp [interLinesTrim] at hx
  | cons s rest ih =>
    intro x hx
    have hhd : '\n' ∉ ("## ".toList) ++ s.1 := by
      intro hm
      rcases List.mem_append.mp hm with h | h
      · simp at h
      · exact hmem s (List.mem_cons_self s rest) h
    cases rest with
    | nil =>
      unfold interLinesTrim at hx
      by_cases hB : s.2 = []
      · rw [if_pos hB] at hx
        rcases List.mem_cons.mp hx with rfl | h
        · exact hhd
        · simp at h
      · rw [if_neg hB] at hx
        rcases List.mem_cons.mp hx with rfl | h
        · exact hhd
        · exact pySplitChar_not_mem '\n' s.2 x h
    | cons s2 rest2 =>
      have h1 : interLinesTrim (s :: s2 :: rest2)
          = (("## ".toList) ++ s.1) ::
            (pySplitChar '\n' s.2 ++ [] :: interLinesTrim (s2 :: rest2)) := rfl
      rw [h1] at hx
      rcases List.mem_cons.mp hx with rfl | h
      · exact hhd
      · rcases List.mem_append.mp h with h2 | h2
        · exact pySplitChar_not_mem '\n' s.2 x h2
        · rcases List.mem_cons.mp h2 with rfl | h3
          · simp
          · exact ih (fun hb hm => hmem hb (List.mem_cons_of_mem s hm)) x h3

theorem renderDoc_lines (l : List (List Char × List Char))
    (hcan : CanonicalSections l) :
    pySplitChar '\n' (renderDoc l) = interLinesTrim l := by
  obtain ⟨hne, hmem⟩ := hcan
  obtain ⟨s, rest, rfl⟩ : ∃ s rest, l = s :: rest := by
    cases l with
    | nil => exact absurd rfl hne
    | cons s rest => exact ⟨s, rest, rfl⟩
  obtain ⟨tail, htail⟩ := interLinesTrim_head s rest
  have hdte : dropTrailEmpty (interLines (s :: rest)) = interLinesTrim (s :: rest) :=
    dropTrailEmpty_interLines (s :: rest) ⟨by simp, hmem⟩
  have hlast := interLinesTrim_last_ok (s :: rest) ⟨by simp, hmem⟩
  have hstr : renderDoc (s :: rest) = pyJoinChar '\n' (interLinesTrim (s :: rest)) := by
    unfold renderDoc
    rw [join_renderBlocks_eq_interLines (s :: rest) (by simp)
        (fun x hx => ((hmem x hx).2.2.2).1)]
    have hhead2 : dropTrailEmpty (interLines (s :: rest))
        = ('#' :: ('#' :: ' ' :: s.1)) :: tail := by
      rw [hdte, htail]
      rfl
    rw [pyStrip_join_dropTrail (interLines (s :: rest))
        (by rw [hdte]; exact hlast) '#' ('#' :: ' ' :: s.1) tail hhead2 (by decide), hdte]
  rw [hstr]
  refine pySplitChar_join '\n' (interLinesTrim (s :: rest)) ?_ ?_
  · rw [htail]
    simp
  · exact interLinesTrim_nl_free (s :: rest) (fun hb hm => ((hmem hb hm).2.2).1)

theorem gatherGo_cons (l : List Char) (ls : List (List Char)) (h : List Char)
    (acc : List (List Char)) :
    gatherGo (l :: ls) h acc
      = if isHeadingLine l then (h, acc.reverse) :: gatherGo ls l []
        else gatherGo ls h (l :: acc) := rfl

theorem gatherGo_no_heading (pre : List (List Char))
    (hpre : ∀ x ∈ pre, isHeadingLine x = false) :
    ∀ h acc, gatherGo pre h acc = [(h, acc.reverse ++ pre)] := by
  induction pre with
  | nil =>
    intro h acc
    simp [gatherGo]
  | cons x pre' ih =>
    intro h acc
    rw [gatherGo_cons, hpre x (List.mem_cons_self x pre'), if_neg Bool.false_ne_true,
      ih (fun y hy => hpre y (List.mem_cons_of_mem x hy)) h (x :: acc)]
    simp

theorem gatherGo_through (pre : List (List Char))
    (hpre : ∀ x ∈ pre, isHeadingLine x = false) (hd : List Char)
    (hhd : isHeadingLine hd = true) (tl : List (List Char)) :
    ∀ h acc, gatherGo (pre ++ hd :: tl) h acc
      = (h, acc.reverse ++ pre) :: gatherGo tl hd [] := by
  induction pre with
  | nil =>
    intro h acc
    rw [List.nil_append, gatherGo_cons, hhd, if_pos rfl]
    simp
  | cons x pre' ih =>
    intro h acc
    rw [List.cons_append, gatherGo_cons, hpre x (List.mem_cons_self x pre'),
      if_neg Bool.false_ne_true,
      ih (fun y hy => hpre y (List.mem_cons_of_mem x hy)) h (x :: acc)]
    simp

theorem gatherSections_cons_heading (hd : List Char) (tl : List (List Char))
    (hhd : isHeadingLine hd = true) :
    gatherSections (hd :: tl) = gatherGo tl hd [] := by
  unfold gatherSections
  rw [hhd, if_pos rfl]

theorem gather_interLinesTrim (l : List (List Char × List Char))
    (hcan : CanonicalSections l) :
    (gatherSections (interLinesTrim l)).map
      (fun hb => (headingText hb.1, pyStrip (pyJoinChar '\n' hb.2))) = l := by
  obtain ⟨hne, hmem⟩ := hcan
  induction l with
  | nil => exact absurd rfl hne
  | cons s rest ih =>
    obtain ⟨hs1, hs2, hs3, hs4, hs5⟩ := hmem s (List.mem_cons_self s rest)
    have hhd : isHeadingLine (("## ".toList) ++ s.1) = true := isHeadingLine_render s.1 hs2
    have hbodyNH : ∀ x ∈ pySplitChar '\n' s.2, isHeadingLine x = false := by
      intro x hx
      cases hxh : isHeadingLine x with
      | false => rfl
      | true => exact absurd (isHeadingLine_imp_start x hxh) (by rw [hs5 x hx]; exact Bool.false_ne_true)
    cases rest with
    | nil =>
      by_cases hB : s.2 = []
      · have h1 : interLinesTrim [s] = [("## ".toList) ++ s.1] := by
          unfold interLinesTrim
          rw [if_pos hB]
        rw [h1, gatherSections_cons_heading _ _ hhd]
        show [((headingText (("## ".toList) ++ s.1)), pyStrip (pyJoinChar '\n' []))] = [s]
        rw [headingText_render s.1 hs1]
        have : pyStrip (pyJoinChar '\n' ([] : List (List Char))) = s.2 := by
          rw [hB]
          rfl
        rw [this]
      · have h1 : interLinesTrim [s] = (("## ".toList) ++ s.1) :: pySplitChar '\n' s.2 := by
          unfold interLinesTrim
          rw [if_neg hB]
        rw [h1, gatherSections_cons_heading _ _ hhd,
          gatherGo_no_heading (pySplitChar '\n' s.2) hbodyNH _ []]
        show [((headingText (("## ".toList) ++ s.1)),
          pyStrip (pyJoinChar '\n' ([].reverse ++ pySplitChar '\n' s.2)))] = [s]
        rw [headingText_render s.1 hs1]
        rw [List.reverse_nil, List.nil_append, pyJoinChar_split, hs4]
    | cons s2 rest2 =>
      obtain ⟨hs21, hs22, _, _, _⟩ := hmem s2 (List.mem_cons_of_mem s (List.mem_cons_self s2 rest2))
      obtain ⟨tail2, htail2⟩ := interLinesTrim_head s2 rest2
      have hhd2 : isHeadingLine (("## ".toList) ++ s2.1) = true := isHeadingLine_render s2.1 hs22
      have h1 : interLinesTrim (s :: s2 :: rest2)
          = (("## ".toList) ++ s.1) ::
            ((pySplitChar '\n' s.2 ++ [[]]) ++ ((("## ".toList) ++ s2.1) :: tail2)) := by
        show (("## ".toList) ++ s.1) ::
            (pySplitChar '\n' s.2 ++ [] :: interLinesTrim (s2 :: rest2)) = _
        rw [htail2]
        simp
      have hpre : ∀ x ∈ pySplitChar '\n' s.2 ++ [[]], isHeadingLine x = false := by
        intro x hx
        rcases List.mem_append.mp hx with h2 | h2
        · exact hbodyNH x h2
        · rcases List.mem_cons.mp h2 with rfl | h3
          · rfl
          · simp at h3
      rw [h1, gatherSections_cons_heading _ _ hhd,
        gatherGo_through (pySplitChar '\n' s.2 ++ [[]]) hpre _ hhd2 tail2 _ [],
        ← gatherSections_cons_heading _ _ hhd2, ← htail2, List.map_cons,
        ih (by simp) (fun x hx => hmem x (List.mem_cons_of_mem s hx))]
    
      rw [headingText_render s.1 hs1]
      rw [List.reverse_nil, List.nil_append,
        pyJoinChar_concat_nil '\n' _ (pySplitChar_ne_nil '\n' s.2), pyJoinChar_split,
        pyStrip_ws_tail s.2 '\n' (by decide), hs4]

theorem digitChar_inj_lt : ∀ a < 10, ∀ b < 10, Nat.digitChar a = Nat.digitChar b → a = b := by
  decide

theorem map_digitChar_inj (l1 : List Nat) :
    ∀ l2, (∀ d ∈ l1, d < 10) → (∀ d ∈ l2, d < 10) →
      l1.map Nat.digitChar = l2.map Nat.digitChar → l1 = l2 := by
  induction l1 with
  | nil =>
    intro l2 _ _ h
    cases l2 with
    | nil => rfl
    | cons b t => simp at h
  | cons a t ih =>
    intro l2 h1 h2 h
    cases l2 with
    | nil => simp at h
    | cons b t2 =>
      simp only [List.map_cons] at h
      injection h with hh ht
      rw [digitChar_inj_lt a (h1 a (List.mem_cons_self a t)) b
          (h2 b (List.mem_cons_self b t2)) hh,
        ih t2 (fun d hd => h1 d (List.mem_cons_of_mem a hd))
          (fun d hd => h2 d (List.mem_cons_of_mem b hd)) ht]

theorem pyNatRepr_inj (m n : Nat) (hm : 1 ≤ m) (hn : 1 ≤ n)
    (h : pyNatRepr m = pyNatRepr n) : m = n := by
  unfold pyNatRepr at h
  rw [if_neg (by omega), if_neg (by omega)] at h
  have h2 : (Nat.digits 10 m).map Nat.digitChar = (Nat.digits 10 n).map Nat.digitChar := by
    have := congrArg List.reverse h
    simpa using this
  have h3 := map_digitChar_inj (Nat.digits 10 m) (Nat.digits 10 n)
    (fun d hd => Nat.digits_lt_base (by norm_num) hd)
    (fun d hd => Nat.digits_lt_base (by norm_num) hd) h2
  have h4 := congrArg (Nat.ofDigits 10) h3
  rwa [Nat.ofDigits_digits, Nat.ofDigits_digits] at h4

theorem containsKey_false_iff {α : Type} (m : List (List Char × α)) (k : List Char) :
    containsKey m k = false ↔ k ∉ m.map Prod.fst := by
  unfold containsKey
  constructor
  · intro h hmem
    obtain ⟨kv, hkv, hfst⟩ := List.mem_map.mp hmem
    have : m.any (fun kv => kv.1 == k) = true :=
      List.any_eq_true.mpr ⟨kv, hkv, by rw [hfst]; exact beq_self_eq_true k⟩
    rw [h] at this
    exact Bool.false_ne_true this
  · intro hmem
    cases hany : m.any (fun kv => kv.1 == k) with
    | false => rfl
    | true =>
      obtain ⟨kv, hkv, hbeq⟩ := List.any_eq_true.mp hany
      exact absurd (List.mem_map.mpr ⟨kv, hkv, eq_of_beq hbeq⟩) hmem

theorem uniquifyGo_succ {α : Type} (key : List Char) (secs : List (List Char × α))
    (suffix fuel : Nat) :
    uniquifyGo key secs suffix (fuel + 1)
      = if containsKey secs (key ++ '_' :: pyNatRepr suffix) = true
        then uniquifyGo key secs (suffix + 1) fuel
        else key ++ '_' :: pyNatRepr suffix := rfl

theorem uniquifyGo_fresh {α : Type} (key : List Char) (secs : List (List Char × α)) :
    ∀ fuel suffix,
      (∃ i < fuel, containsKey secs (key ++ '_' :: pyNatRepr (suffix + i)) = false) →
      containsKey secs (uniquifyGo key secs suffix fuel) = false := by
  intro fuel
  induction fuel with
  | zero =>
    intro suffix h
    obtain ⟨i, hi, _⟩ := h
    omega
  | succ f ih =>
    intro suffix h
    obtain ⟨i, hi, hfree⟩ := h
    rw [uniquifyGo_succ]
    by_cases hc : containsKey secs (key ++ '_' :: pyNatRepr suffix) = true
    · rw [if_pos hc]
      apply ih
      cases i with
      | zero =>
        rw [Nat.add_zero] at hfree
        rw [hfree] at hc
        exact absurd hc Bool.false_ne_true
      | succ j =>
        refine ⟨j, by omega, ?_⟩
        have : suffix + (j + 1) = suffix + 1 + j := by omega
        rw [← this]
        exact hfree
    · rw [if_neg hc]
      exact Bool.eq_false_iff.mpr hc

theorem exists_free_suffix {α : Type} (key : List Char) (secs : List (List Char × α)) :
    ∃ i < secs.length + 1, containsKey secs (key ++ '_' :: pyNatRepr (2 + i)) = false := by
  by_contra hall
  push_neg at hall
  have hall2 : ∀ i < secs.length + 1,
      (key ++ '_' :: pyNatRepr (2 + i)) ∈ secs.map Prod.fst := by
    intro i hi
    have := hall i hi
    by_cases hc : containsKey secs (key ++ '_' :: pyNatRepr (2 + i)) = false
    · exact absurd hc this
    · have : containsKey secs (key ++ '_' :: pyNatRepr (2 + i)) = true :=
        eq_true_of_ne_false hc
      by_contra hmem
      rw [(containsKey_false_iff secs _).mpr hmem] at this
      exact Bool.false_ne_true this
  have hmapsto : ∀ i ∈ Finset.range (secs.length + 1),
      (key ++ '_' :: pyNatRepr (2 + i)) ∈ (secs.map Prod.fst).toFinset := by
    intro i hi
    exact List.mem_toFinset.mpr (hall2 i (Finset.mem_range.mp hi))
  have hinj : Set.InjOn (fun i => key ++ '_' :: pyNatRepr (2 + i))
      (Finset.range (secs.length + 1)) := by
    intro i _ j _ hij
    simp only [] at hij
    have h1 : ('_' :: pyNatRepr (2 + i)) = ('_' :: pyNatRepr (2 + j)) :=
      List.append_cancel_left hij
    injection h1 with _ h2
    have := pyNatRepr_inj (2 + i) (2 + j) (by omega) (by omega) h2
    omega
  have hcard := Finset.card_le_card_of_injOn _ hmapsto hinj
  rw [Finset.card_range] at hcard
  have hle : (secs.map Prod.fst).toFinset.card ≤ (secs.map Prod.fst).length :=
    List.toFinset_card_le _
  rw [List.length_map] at hle
  omega

theorem uniquify_fresh {α : Type} (key : List Char) (secs : List (List Char × α)) :
    containsKey secs (uniquify key secs) = false := by
  unfold uniquify
  by_cases h : containsKey secs key = true
  · rw [if_pos h]
    obtain ⟨i, hi, hfree⟩ := exists_free_suffix key secs
    exact uniquifyGo_fresh key secs (secs.length + 1) 2 ⟨i, hi, hfree⟩
  · rw [if_neg h]
    exact Bool.eq_false_iff.mpr h

theorem buildParsedGo_nil (acc : ParsedDocument) : buildParsedGo [] acc = acc := rfl

theorem buildParsedGo_cons (hb : List Char × List (List Char))
    (rest : List (List Char × List (List Char))) (acc : ParsedDocument) :
    buildParsedGo (hb :: rest) acc
      = buildParsedGo rest
        ⟨acc.sections ++ [(uniquify (normalize_section_key (headingText hb.1)) acc.sections,
            pyStrip (pyJoinChar '\n' hb.2))],
          acc.order ++ [uniquify (normalize_section_key (headingText hb.1)) acc.sections],
          acc.headings ++ [(uniquify (normalize_section_key (headingText hb.1)) acc.sections,
            headingText hb.1)]⟩ := rfl

theorem buildParsedGo_wf (raw : List (List Char × List (List Char))) :
    ∀ (trips : List (List Char × List Char × List Char)),
      (trips.map (fun t => t.1)).Nodup →
      ∃ trips2,
        buildParsedGo raw
          ⟨trips.map (fun t => (t.1, t.2.2)), trips.map (fun t => t.1),
            trips.map (fun t => (t.1, t.2.1))⟩
          = ⟨(trips ++ trips2).map (fun t => (t.1, t.2.2)),
              (trips ++ trips2).map (fun t => t.1),
              (trips ++ trips2).map (fun t => (t.1, t.2.1))⟩ ∧
        ((trips ++ trips2).map (fun t => t.1)).Nodup ∧
        trips2.map (fun t => t.2)
          = raw.map (fun hb => (headingText hb.1, pyStrip (pyJoinChar '\n' hb.2))) := by
  induction raw with
  | nil =>
    intro trips hnd
    exact ⟨[], by rw [List.append_nil]; exact buildParsedGo_nil _, by simpa using hnd, rfl⟩
  | cons hb rest ih =>
    intro trips hnd
    set u := uniquify (normalize_section_key (headingText hb.1))
      (trips.map (fun t => (t.1, t.2.2))) with hu
    set hd := headingText hb.1 with hhd
    set bd := pyStrip (pyJoinChar '\n' hb.2) with hbd
    have hfresh : containsKey (trips.map (fun t => (t.1, t.2.2))) u = false := by
      rw [hu]
      exact uniquify_fresh _ _
    have hnotmem : u ∉ trips.map (fun t => t.1) := by
      have h2 := (containsKey_false_iff _ _).mp hfresh
      intro hmem
      apply h2
      rw [List.map_map]
      exact hmem
    have hnd2 : ((trips ++ [(u, hd, bd)]).map (fun t => t.1)).Nodup := by
      rw [List.map_append]
      simp only [List.map_cons, List.map_nil]
      rw [List.nodup_append]
      refine ⟨hnd, List.nodup_singleton _, ?_⟩
      intro a ha hb2
      rcases List.mem_singleton.mp hb2 with rfl
      exact hnotmem ha
    obtain ⟨trips2, heq, hnd3, hdata⟩ := ih (trips ++ [(u, hd, bd)]) hnd2
    refine ⟨(u, hd, bd) :: trips2, ?_, ?_, ?_⟩
    · rw [buildParsedGo_cons]
      rw [← hhd, ← hu, ← hbd]
      have hacc : (⟨trips.map (fun t => (t.1, t.2.2)) ++ [(u, bd)],
          trips.map (fun t => t.1) ++ [u],
          trips.map (fun t => (t.1, t.2.1)) ++ [(u, hd)]⟩ : ParsedDocument)
          = ⟨(trips ++ [(u, hd, bd)]).map (fun t => (t.1, t.2.2)),
              (trips ++ [(u, hd, bd)]).map (fun t => t.1),
              (trips ++ [(u, hd, bd)]).map (fun t => (t.1, t.2.1))⟩ := by
        simp
      rw [hacc, heq]
      simp
    · simpa using hnd3
    · simp only [List.map_cons]
      rw [hdata]

theorem assocGet_map_self {β : Type} (trips : List (List Char × β))
    (hnd : (trips.map Prod.fst).Nodup) :
    ∀ t ∈ trips, assocGet trips t.1 = some t.2 := by
  induction trips with
  | nil =>
    intro t ht
    cases ht
  | cons p rest ih =>
    intro t ht
    rw [List.map_cons, List.nodup_cons] at hnd
    rcases List.mem_cons.mp ht with rfl | htr
    · unfold assocGet
      have hfind : List.find? (fun kv => kv.1 == t.1) (t :: rest) = some t :=
        List.find?_cons_of_pos _ (beq_self_eq_true t.1)
      rw [hfind]
      rfl
    · have hne : (p.1 == t.1) = false := by
        refine beq_eq_false_iff_ne.mpr ?_
        intro he
        exact hnd.1 (he ▸ List.mem_map.mpr ⟨t, htr, rfl⟩)
      have hfind : List.find? (fun kv => kv.1 == t.1) (p :: rest)
          = List.find? (fun kv => kv.1 == t.1) rest :=
        List.find?_cons_of_neg _ (by rw [hne]; exact Bool.false_ne_true)
      unfold assocGet
      rw [hfind]
      exact ih hnd.2 t htr

theorem merge_sections_wf (trips : List (List Char × List Char × List Char))
    (hnd : (trips.map (fun t => t.1)).Nodup) :
    merge_sections
      ⟨trips.map (fun t => (t.1, t.2.2)), trips.map (fun t => t.1),
        trips.map (fun t => (t.1, t.2.1))⟩ []
      = pyStrip (pyJoinChar '\n'
          (trips.map (fun t => renderBlock (t.2.1, t.2.2)))) := by
  unfold merge_sections
  have hmap : (trips.map (fun t => t.1)).map (fun key =>
      let heading := (assocGet (trips.map (fun t => (t.1, t.2.1))) key).getD
        (pyTitle (pyReplace key ("_".toList) (" ".toList)))
      let body := (assocGet ([] : List (List Char × List Char)) key).getD
        ((assocGet (trips.map (fun t => (t.1, t.2.2))) key).getD [])
      ("## ".toList) ++ heading ++ '\n' :: pyStrip body ++ ['\n'])
      = trips.map (fun t => renderBlock (t.2.1, t.2.2)) := by
    rw [List.map_map]
    refine List.map_congr_left ?_
    intro t ht
    have hH : assocGet (trips.map (fun t => (t.1, t.2.1))) t.1 = some t.2.1 := by
      have hnd2 : ((trips.map (fun t => (t.1, t.2.1))).map Prod.fst).Nodup := by
        rw [List.map_map]
        exact hnd
      have := assocGet_map_self (trips.map (fun t => (t.1, t.2.1))) hnd2
        (t.1, t.2.1) (List.mem_map.mpr ⟨t, ht, rfl⟩)
      simpa using this
    have hS : assocGet (trips.map (fun t => (t.1, t.2.2))) t.1 = some t.2.2 := by
      have hnd2 : ((trips.map (fun t => (t.1, t.2.2))).map Prod.fst).Nodup := by
        rw [List.map_map]
        exact hnd
      have := assocGet_map_self (trips.map (fun t => (t.1, t.2.2))) hnd2
        (t.1, t.2.2) (List.mem_map.mpr ⟨t, ht, rfl⟩)
      simpa using this
    simp only [Function.comp_apply, hH, hS]
    rfl
  rw [hmap]

/-- C2 (amended): the round trip `merge(parse(doc), {})` is byte-identical to
`doc` for every document in the serializer's canonical form — a nonempty
section list rendered as `## H` + newline + stripped body per section, blocks
joined by blank lines, with each heading stripped, nonempty and newline-free,
and no body line beginning like a heading (`##` + whitespace).  For other
documents the parser normalizes interior whitespace (and drops any preamble
before the first heading), so only this restricted form round-trips exactly. -/
theorem C2_roundtrip_canonical (l : List (List Char × List Char))
    (hcan : CanonicalSections l) :
    merge_sections (parse_markdown_sections (renderDoc l)) [] = renderDoc l := by
  have hlines := renderDoc_lines l hcan
  have hgather := gather_interLinesTrim l hcan
  obtain ⟨hne, hmem⟩ := hcan
  obtain ⟨s, rest, rfl⟩ : ∃ s rest, l = s :: rest := by
    cases l with
    | nil => exact absurd rfl hne
    | cons s rest => exact ⟨s, rest, rfl⟩
  obtain ⟨tail, htail⟩ := interLinesTrim_head s rest
  have hany : (pySplitChar '\n' (renderDoc (s :: rest))).any isHeadingLine = true := by
    rw [hlines, htail, List.any_cons,
      isHeadingLine_render s.1 ((hmem s (List.mem_cons_self s rest)).2.1)]
    rfl
  have hparse : parse_markdown_sections (renderDoc (s :: rest))
      = buildParsedGo (gatherSections (interLinesTrim (s :: rest))) ⟨[], [], []⟩ := by
    unfold parse_markdown_sections
    rw [hany, if_pos rfl, hlines]
  obtain ⟨trips2, heq, hnd, hdata⟩ :=
    buildParsedGo_wf (gatherSections (interLinesTrim (s :: rest))) [] (by simp)
  have heq' : buildParsedGo (gatherSections (interLinesTrim (s :: rest))) ⟨[], [], []⟩
      = ⟨trips2.map (fun t => (t.1, t.2.2)), trips2.map (fun t => t.1),
          trips2.map (fun t => (t.1, t.2.1))⟩ := by
    have h2 := heq
    simp only [List.nil_append] at h2
    exact h2
  have hnd' : (trips2.map (fun t => t.1)).Nodup := by
    simpa using hnd
  rw [hparse, heq', merge_sections_wf trips2 hnd']
  have hblocks : trips2.map (fun t => renderBlock (t.2.1, t.2.2))
      = (s :: rest).map renderBlock := by
    have h3 : trips2.map (fun t => renderBlock (t.2.1, t.2.2))
        = (trips2.map (fun t => t.2)).map renderBlock := by
      rw [List.map_map]
      refine List.map_congr_left ?_
      intro t _
      simp
    rw [h3, hdata, hgather]
  rw [hblocks]
  rfl

def exampleSections : List (List Char × List Char) :=
  [("Overview".toList, "ov body\nsecond line".toList),
   ("Key Modules".toList, "mods".toList)]

/-- C2 witness: the canonical two-section document round-trips byte-for-byte. -/
theorem C2_witness :
    CanonicalSections exampleSections ∧
    merge_sections (parse_markdown_sections (renderDoc exampleSections)) []
      = renderDoc exampleSections :=
  ⟨by refine ⟨by decide, by decide⟩,
   C2_roundtrip_canonical exampleSections (by refine ⟨by decide, by decide⟩)⟩
